import Mathlib

/-!
Verification of the order-preserving JSON map library (package orderedmap).

This file gives a shallow embedding of the library's core: the OrderedMap
data structure (keys-in-order plus a string-keyed value mapping), its
mutation API (Set/Delete/Get), the pair sort (Sort, delegating to Go's
sort.Sort), the streaming two-phase JSON decoder (UnmarshalJSON,
decodeOrderedMap, decodeSlice), the duplicate-key prescan (CheckDuplicate)
and the encoder (MarshalJSON).

Modelling conventions, fixed once here:

* A JSON document is embedded as the inductive JValue; the byte input of
  UnmarshalJSON is represented by a syntactically valid document value.
  Malformed byte inputs are rejected by the Go standard library before any
  observable mutation and are outside the embedding.
* The Go standard library encoding/json is an external collaborator.  Its
  token stream (json.Decoder.Token) is embedded as JValue.tokens; its
  generic decoding (json.Unmarshal into map[string]interface sharp, with
  last-value-wins for repeated object keys and merging into an existing
  map) is embedded as goVal/goMembers; json.Encoder.Encode serialises a
  value and appends a newline character.  JSON numbers are modelled as
  integers: none of the claims depends on float64 semantics.
* A Go map[string]interface sharp is embedded as an association list
  (List (String × DVal)) whose operations alGet/alSet/alErase look up,
  update-or-append, and remove by key; Go map iteration order is never
  observed by the library code embedded here except in gomapSer, where the
  Go encoder sorts the keys.
* Byte buffers produced by the encoder are embedded as List Char.
-/

namespace OrderedMapVerify

/-- A syntactically valid JSON document value (the input grammar).  Object
member lists may repeat keys, as JSON texts may. -/
inductive JValue where
  | null
  | bool (b : Bool)
  | num (n : Int)
  | str (s : String)
  | arr (items : List JValue)
  | obj (members : List (String × JValue))

/-- One token of the streaming reader (json.Decoder.Token): the four
structural delimiters, or a scalar.  Object keys arrive as tstr tokens. -/
inductive Token where
  | objOpen
  | objClose
  | arrOpen
  | arrClose
  | tstr (s : String)
  | tnull
  | tbool (b : Bool)
  | tnum (n : Int)
deriving DecidableEq

mutual

/-- The token stream that json.Decoder.Token yields for a document. -/
def JValue.tokens : JValue → List Token
  | .null => [.tnull]
  | .bool b => [.tbool b]
  | .num n => [.tnum n]
  | .str s => [.tstr s]
  | .arr items => .arrOpen :: tokensList items ++ [.arrClose]
  | .obj ms => .objOpen :: tokensMembers ms ++ [.objClose]

/-- Token stream of the elements of an array, concatenated. -/
def tokensList : List JValue → List Token
  | [] => []
  | v :: rest => v.tokens ++ tokensList rest

/-- Token stream of the members of an object: each key as a string token
followed by the value's tokens. -/
def tokensMembers : List (String × JValue) → List Token
  | [] => []
  | (k, v) :: rest => .tstr k :: v.tokens ++ tokensMembers rest

end

/-- A Go dynamic value (interface sharp) as stored in an OrderedMap's
values: a scalar, a slice, a plain map[string]interface sharp produced by
the generic unmarshal (gomap), or an OrderedMap produced by the
order-recovering decode (omap, carrying its escapeHTML flag as the source
struct does). -/
inductive DVal where
  | null
  | bool (b : Bool)
  | num (n : Int)
  | str (s : String)
  | arr (items : List DVal)
  | gomap (entries : List (String × DVal))
  | omap (escapeHTML : Bool) (keys : List String) (entries : List (String × DVal))

/-- Look up a key in an association list standing for a Go map. -/
def alGet : List (String × DVal) → String → Option DVal
  | [], _ => none
  | (k, v) :: rest, key => if k = key then some v else alGet rest key

/-- Store a key in an association list standing for a Go map: update in
place if present, append otherwise. -/
def alSet : List (String × DVal) → String → DVal → List (String × DVal)
  | [], key, v => [(key, v)]
  | (k, w) :: rest, key, v =>
      if k = key then (k, v) :: rest else (k, w) :: alSet rest key v

/-- Remove a key from an association list standing for a Go map. -/
def alErase (l : List (String × DVal)) (key : String) : List (String × DVal) :=
  l.filter (fun p => p.1 ≠ key)

/-- The OrderedMap struct of the source: insertion-ordered keys, the value
mapping, the HTML-escaping toggle and the duplicate-key policy flag
(jsonLastValueWins; when false, UnmarshalJSON runs the strict prescan). -/
structure OMap where
  keys : List String
  values : List (String × DVal)
  escapeHTML : Bool
  jsonLastValueWins : Bool

/-- New(): the empty map with escapeHTML on and the strict duplicate
policy (jsonLastValueWins false). -/
def OMap.new : OMap :=
  { keys := [], values := [], escapeHTML := true, jsonLastValueWins := false }

/-- Get returns the stored value and whether the key exists. -/
def OMap.get (o : OMap) (key : String) : Option DVal :=
  alGet o.values key

/-- Set appends the key to the key order only when it is absent from the
value mapping, and always overwrites the stored value. -/
def OMap.set (o : OMap) (key : String) (v : DVal) : OMap :=
  let keys := match alGet o.values key with
    | some _ => o.keys
    | none => o.keys ++ [key]
  { o with keys := keys, values := alSet o.values key v }

/-- Delete is a no-op when the key has no stored value; otherwise it
removes the first matching key from the key order (shifting the rest left)
and deletes the stored value. -/
def OMap.delete (o : OMap) (key : String) : OMap :=
  match alGet o.values key with
  | none => o
  | some _ => { o with keys := o.keys.erase key, values := alErase o.values key }

/-! ### Phase 1: the generic unmarshal (encoding/json collaborator)

json.Unmarshal into a map[string]interface sharp merges into the existing
map, resolves repeated object keys by last value wins, and produces plain
maps / slices / scalars for nested values. -/

mutual

/-- The dynamic value json.Unmarshal produces for a document value. -/
def goVal : JValue → DVal
  | .null => .null
  | .bool b => .bool b
  | .num n => .num n
  | .str s => .str s
  | .arr items => .arr (goList items)
  | .obj ms => .gomap (goMembers [] ms)

/-- Elementwise generic unmarshal of array items. -/
def goList : List JValue → List DVal
  | [] => []
  | v :: rest => goVal v :: goList rest

/-- Generic unmarshal of object members into an existing map: each member
is stored with alSet, so a repeated key keeps its first position and its
last value, and entries of acc not named by the members survive. -/
def goMembers (acc : List (String × DVal)) : List (String × JValue) → List (String × DVal)
  | [] => acc
  | (k, v) :: rest => goMembers (alSet acc k (goVal v)) rest

end

/-! ### Phase 2: the order-recovering streaming decoder -/

/-- The duplicate-key branch of decodeOrderedMap: find the first index
holding the key, shift everything after it left by one, and write the key
into the last slot.  When the key is present this moves it to the end;
the else branch (key absent) mirrors the source overwriting the last
element without any shift, and is unreachable because hasKey tracks
exactly the keys already appended. -/
def dupShift (keys : List String) (key : String) : List String :=
  if keys.contains key then keys.erase key ++ [key]
  else keys.dropLast ++ [key]

mutual

/-- decodeOrderedMap: walk the token stream of an object body.  On a close
delimiter return; on a key token record it (append, or move to the end if
already seen in this object) and handle the following value token.  The
state (keys, hasKey, vals) mirrors o.keys, the local hasKey set and
o.values of the source; eh is the escapeHTML flag the source copies into
nested OrderedMaps; fuel makes the recursion structural, and every result
of interest is reached with fuel larger than the token count.  A none
result covers the source's error returns and the panic on a non-string
key token, none of which is reachable from a valid document stream. -/
def decodeOrderedMap (eh : Bool) (fuel : Nat) (toks : List Token) (keys hasKey : List String)
    (vals : List (String × DVal)) : Option (List String × List (String × DVal) × List Token) :=
  match fuel with
  | 0 => none
  | fuel + 1 =>
    match toks with
    | [] => none
    | .objClose :: rest => some (keys, vals, rest)
    | .tstr key :: rest =>
        let keys1 := if hasKey.contains key then dupShift keys key else keys ++ [key]
        let hasKey1 := if hasKey.contains key then hasKey else key :: hasKey
        match decodeValue eh fuel rest (alGet vals key) with
        | some (none, rest2) => decodeOrderedMap eh fuel rest2 keys1 hasKey1 vals
        | some (some newVal, rest2) =>
            decodeOrderedMap eh fuel rest2 keys1 hasKey1 (alSet vals key newVal)
        | none => none
    | _ :: _ => none

/-- The value-token switch shared verbatim by decodeOrderedMap and
decodeSlice in the source: given the stored value cur for this position,
an object-open token rebuilds an OrderedMap from the stored plain map or
OrderedMap entries (or decodes into a discarded fresh map when the stored
value has neither shape), an array-open token walks the stored slice in
place, and any other token is a scalar already stored by phase 1.  The
returned Option DVal is the replacement to store (none: leave the stored
value untouched). -/
def decodeValue (eh : Bool) (fuel : Nat) (toks : List Token) (cur : Option DVal) :
    Option (Option DVal × List Token) :=
  match fuel with
  | 0 => none
  | fuel + 1 =>
    match toks with
    | [] => none
    | .objOpen :: rest =>
        match cur with
        | some (.gomap g) =>
            match decodeOrderedMap eh fuel rest [] [] g with
            | some (ks, vs, rest2) => some (some (.omap eh ks vs), rest2)
            | none => none
        | some (.omap _ _ g) =>
            match decodeOrderedMap eh fuel rest [] [] g with
            | some (ks, vs, rest2) => some (some (.omap eh ks vs), rest2)
            | none => none
        | _ =>
            match decodeOrderedMap eh fuel rest [] [] [] with
            | some (_, _, rest2) => some (none, rest2)
            | none => none
    | .arrOpen :: rest =>
        match cur with
        | some (.arr l) =>
            match decodeSlice eh fuel rest 0 l with
            | some (l2, rest2) => some (some (.arr l2), rest2)
            | none => none
        | _ =>
            match decodeSlice eh fuel rest 0 [] with
            | some (_, rest2) => some (none, rest2)
            | none => none
    | _ :: rest => some (none, rest)

/-- decodeSlice: walk the token stream of an array body, handling the
token at each index against the stored slice element there (an index at
or past the stored length behaves as a missing stored value, decoded and
discarded, exactly as the source's bounds checks do).  Replacements are
stored in place with List.set, which like the source never grows the
slice. -/
def decodeSlice (eh : Bool) (fuel : Nat) (toks : List Token) (index : Nat) (s : List DVal) :
    Option (List DVal × List Token) :=
  match fuel with
  | 0 => none
  | fuel + 1 =>
    match toks with
    | [] => none
    | .arrClose :: rest => some (s, rest)
    | _ =>
        match decodeValue eh fuel toks s[index]? with
        | some (none, rest2) => decodeSlice eh fuel rest2 (index + 1) s
        | some (some newVal, rest2) => decodeSlice eh fuel rest2 (index + 1) (s.set index newVal)
        | none => none

end

/-! ### The duplicate-key prescan (CheckDuplicate) -/

/-- Errors surfaced by UnmarshalJSON in the embedding: truncated or
malformed streams (eof/badToken, unreachable from valid documents), the
type error of unmarshalling a non-object into the values map, and the
duplicate-key error of the strict prescan, which names the key. -/
inductive DecodeErr where
  | eof
  | typeErr
  | badToken
  | dupKey (k : String)
deriving DecidableEq

mutual

/-- CheckDuplicate: read one value from the token stream; recurse through
objects (tracking the keys seen at each level and failing on a repeat,
naming the key) and arrays; scalars need nothing.  Close delimiters in
value position are consumed without action, as the source's switch falls
through for them. -/
def checkDuplicate (fuel : Nat) (toks : List Token) : Except DecodeErr (List Token) :=
  match fuel with
  | 0 => .error .eof
  | fuel + 1 =>
    match toks with
    | [] => .error .eof
    | .objOpen :: rest => checkDupObj fuel rest []
    | .arrOpen :: rest => checkDupArr fuel rest
    | _ :: rest => .ok rest

/-- The object loop of CheckDuplicate: while More, read a key, fail if it
was seen at this level, check the value recursively; then consume the
closing delimiter.  A non-string key token is the source's panic. -/
def checkDupObj (fuel : Nat) (toks : List Token) (seen : List String) :
    Except DecodeErr (List Token) :=
  match fuel with
  | 0 => .error .eof
  | fuel + 1 =>
    match toks with
    | [] => .error .eof
    | .objClose :: rest => .ok rest
    | .tstr key :: rest =>
        if seen.contains key then .error (.dupKey key)
        else
          match checkDuplicate fuel rest with
          | .ok rest2 => checkDupObj fuel rest2 (key :: seen)
          | .error e => .error e
    | _ :: _ => .error .badToken

/-- The array loop of CheckDuplicate: while More, check each element;
then consume the closing delimiter. -/
def checkDupArr (fuel : Nat) (toks : List Token) : Except DecodeErr (List Token) :=
  match fuel with
  | 0 => .error .eof
  | fuel + 1 =>
    match toks with
    | [] => .error .eof
    | .arrClose :: rest => .ok rest
    | _ =>
        match checkDuplicate fuel toks with
        | .ok rest2 => checkDupArr fuel rest2
        | .error e => .error e

end

/-- UnmarshalJSON on a destination map o: with the strict policy
(jsonLastValueWins false) run CheckDuplicate over the whole stream first
and stop on its error; then unmarshal generically into the existing
values map (merging; a non-object input is the collaborator's type error,
which leaves the map untouched), reset the key order, skip the opening
delimiter and run decodeOrderedMap over the rest of the stream.  The
result pairs the final state of o with the error returned, if any; the
eof arm is unreachable for a document stream because the chosen fuel
exceeds the token count. -/
def OMap.unmarshalJSON (o : OMap) (v : JValue) : OMap × Option DecodeErr :=
  let decode : OMap × Option DecodeErr :=
    match v with
    | .obj ms =>
        let vals1 := goMembers o.values ms
        match decodeOrderedMap o.escapeHTML ((tokensMembers ms).length + 2)
            (tokensMembers ms ++ [.objClose]) [] [] vals1 with
        | some (ks, vs, _) => ({ o with keys := ks, values := vs }, none)
        | none => ({ o with keys := [], values := vals1 }, some .eof)
    | _ => (o, some .typeErr)
  if o.jsonLastValueWins then decode
  else
    match checkDuplicate (v.tokens.length + 1) v.tokens with
    | .error e => (o, some e)
    | .ok _ => decode

/-! ### Association list lemmas -/

theorem alGet_alSet_self (l : List (String × DVal)) (k : String) (v : DVal) :
    alGet (alSet l k v) k = some v := by
  induction l with
  | nil => simp [alSet, alGet]
  | cons p rest ih =>
      obtain ⟨k1, w⟩ := p
      by_cases h : k1 = k
      · simp [alSet, alGet, h]
      · simp [alSet, alGet, h, ih]

theorem alGet_alSet_ne (l : List (String × DVal)) (k k2 : String) (v : DVal) (h : k2 ≠ k) :
    alGet (alSet l k v) k2 = alGet l k2 := by
  induction l with
  | nil => simp [alSet, alGet, Ne.symm h]
  | cons p rest ih =>
      obtain ⟨k1, w⟩ := p
      by_cases h1 : k1 = k
      · subst h1
        simp [alSet, alGet, Ne.symm h]
      · simp only [alSet, if_neg h1]
        by_cases h2 : k1 = k2 <;> simp [alGet, h2, ih]

theorem alErase_cons (k1 : String) (w : DVal) (rest : List (String × DVal)) (k : String) :
    alErase ((k1, w) :: rest) k =
      if k1 = k then alErase rest k else (k1, w) :: alErase rest k := by
  by_cases h : k1 = k <;> simp [alErase, List.filter_cons, h]

theorem alGet_alErase_self (l : List (String × DVal)) (k : String) :
    alGet (alErase l k) k = none := by
  induction l with
  | nil => simp [alErase, alGet]
  | cons p rest ih =>
      obtain ⟨k1, w⟩ := p
      by_cases h : k1 = k <;> simp [alErase_cons, h, alGet, ih]

theorem alGet_alErase_ne (l : List (String × DVal)) (k k2 : String) (h : k2 ≠ k) :
    alGet (alErase l k) k2 = alGet l k2 := by
  induction l with
  | nil => simp [alErase, alGet]
  | cons p rest ih =>
      obtain ⟨k1, w⟩ := p
      by_cases h1 : k1 = k
      · subst h1
        simp [alErase_cons, alGet, ih, Ne.symm h]
      · by_cases h2 : k1 = k2 <;> simp [alErase_cons, alGet, h1, h2, h, ih]

theorem alSet_map_fst (l : List (String × DVal)) (k : String) (v : DVal) :
    (alSet l k v).map Prod.fst =
      if k ∈ l.map Prod.fst then l.map Prod.fst else l.map Prod.fst ++ [k] := by
  induction l with
  | nil => simp [alSet]
  | cons p rest ih =>
      obtain ⟨k1, w⟩ := p
      by_cases h : k1 = k
      · simp [alSet, h]
      · simp only [alSet, if_neg h, List.map_cons, ih]
        by_cases h2 : k ∈ rest.map Prod.fst
        · simp [h2, Ne.symm h]
        · simp [h2, Ne.symm h]

/-! ### Claim C4: Set overwrites in place -/

/-- C4: for every map and key already present, Set overwrites the stored
value without changing the key order; and on an empty map the sequence
Set k v1, Set j w, Set k v2 (with k and j distinct) yields key order
[k, j]. -/
theorem set_overwrite_preserves_position (o : OMap) (k : String) (v : DVal)
    (h : (alGet o.values k).isSome) :
    ((o.set k v).keys = o.keys ∧ alGet (o.set k v).values k = some v) ∧
    ∀ (k1 j : String) (v1 w v2 : DVal), k1 ≠ j →
      (((OMap.new.set k1 v1).set j w).set k1 v2).keys = [k1, j] := by
  constructor
  · obtain ⟨d, hd⟩ := Option.isSome_iff_exists.mp h
    constructor
    · simp [OMap.set, hd]
    · simp [OMap.set, alGet_alSet_self]
  · intro k1 j v1 w v2 hne
    simp [OMap.set, OMap.new, alGet, alSet, hne, Ne.symm hne]

/-- Witness for C4 at a concrete map and keys. -/
theorem set_overwrite_preserves_position_witness :
    (((OMap.new.set "a" (.num 1)).set "a" (.num 2)).keys = (OMap.new.set "a" (.num 1)).keys ∧
      alGet ((OMap.new.set "a" (.num 1)).set "a" (.num 2)).values "a" = some (.num 2)) ∧
    ∀ (k1 j : String) (v1 w v2 : DVal), k1 ≠ j →
      (((OMap.new.set k1 v1).set j w).set k1 v2).keys = [k1, j] :=
  set_overwrite_preserves_position (OMap.new.set "a" (.num 1)) "a" (.num 2) (by decide)

/-! ### Claim C8: Delete -/

/-- C8: Delete is a no-op on an absent key; on a present key it removes
the key from the key order (first occurrence, preserving the relative
order of the remaining keys) and from the value mapping, leaving every
other stored value in place; and deleting the middle key of a map built
with keys a, b, c yields key order [a, c]. -/
theorem delete_spec (o : OMap) (k : String) :
    (alGet o.values k = none → o.delete k = o) ∧
    ((alGet o.values k).isSome →
      (o.delete k).keys = o.keys.erase k ∧
      alGet (o.delete k).values k = none ∧
      ∀ k2, k2 ≠ k → alGet (o.delete k).values k2 = alGet o.values k2) ∧
    ((((OMap.new.set "a" (.num 1)).set "b" (.num 2)).set "c" (.num 3)).delete "b").keys =
      ["a", "c"] := by
  refine ⟨fun h => ?_, fun h => ?_, by decide⟩
  · simp [OMap.delete, h]
  · obtain ⟨d, hd⟩ := Option.isSome_iff_exists.mp h
    exact ⟨by simp [OMap.delete, hd], by simp [OMap.delete, hd, alGet_alErase_self],
      fun k2 h2 => by simp [OMap.delete, hd, alGet_alErase_ne _ _ _ h2]⟩

/-- Witness for C8 at a concrete map and key. -/
theorem delete_spec_witness :
    ((((OMap.new.set "a" (.num 1)).set "b" (.num 2)).set "c" (.num 3)).delete "b").keys =
      ["a", "c"] :=
  (delete_spec OMap.new "b").2.2

/-! ### The encoder (MarshalJSON and the encoding/json value encoder)

MarshalJSON writes an opening brace, then for every key in order (with a
comma before every chunk but the first) the encoder's output for the key,
a colon, and the encoder's output for the stored value, then the closing
brace.  json.Encoder.Encode appends a newline character after each value
it writes.  A nested OrderedMap value is serialised by its own
MarshalJSON and then compacted by the collaborator, so its inner newlines
do not survive; a plain map is serialised with its keys sorted.  The
comma-before-every-chunk-but-the-first loop is rendered as joinComma over
the per-key chunks, which produces the identical byte sequence. -/

/-- Lowercase hexadecimal digit, as the Go encoder's escapes use. -/
def hexDigit (n : Nat) : Char :=
  if n < 10 then Char.ofNat ('0'.toNat + n) else Char.ofNat ('a'.toNat + n - 10)

/-- Decimal digits of a positive number, most significant first. -/
def natCharsAux : Nat → List Char → List Char
  | 0, acc => acc
  | n + 1, acc => natCharsAux ((n + 1) / 10) (Char.ofNat (48 + (n + 1) % 10) :: acc)

/-- Decimal rendering of a natural number. -/
def natChars (n : Nat) : List Char :=
  if n = 0 then ['0'] else natCharsAux n []

/-- Decimal rendering of an integer, as the collaborator emits our
integer-modelled JSON numbers. -/
def intChars (n : Int) : List Char :=
  if n < 0 then '-' :: natChars n.natAbs else natChars n.toNat

/-- The escape of one character in a JSON string, following the
collaborator encoder: quote and backslash get two-character escapes,
newline, carriage return and tab get theirs, the remaining control
characters and (under escapeHTML) the angle brackets and ampersand get
u-escapes, the line and paragraph separators always get u-escapes, and
every other character is emitted as itself. -/
def quoteChar (escapeHTML : Bool) (c : Char) : List Char :=
  if c = '"' then ['\\', '"']
  else if c = '\\' then ['\\', '\\']
  else if c = '\n' then ['\\', 'n']
  else if c = '\r' then ['\\', 'r']
  else if c = '\t' then ['\\', 't']
  else if c.toNat < 32 ∨ (escapeHTML ∧ (c = '<' ∨ c = '>' ∨ c = '&')) then
    ['\\', 'u', '0', '0', hexDigit (c.toNat / 16), hexDigit (c.toNat % 16)]
  else if c.toNat = 8232 ∨ c.toNat = 8233 then
    ['\\', 'u', '2', '0', '2', hexDigit (c.toNat % 16)]
  else [c]

/-- A JSON string literal for s, with the encoder's escaping. -/
def quote (escapeHTML : Bool) (s : String) : List Char :=
  '"' :: s.toList.flatMap (quoteChar escapeHTML) ++ ['"']

/-- Comma-separated concatenation: the loop emitting a comma before every
chunk but the first. -/
def joinComma : List (List Char) → List Char
  | [] => []
  | [x] => x
  | x :: rest => x ++ ',' :: joinComma rest

/-- Lookup in a list of already-serialised entries. -/
def alGetSer : List (String × List Char) → String → Option (List Char)
  | [], _ => none
  | (k, cs) :: rest, key => if k = key then some cs else alGetSer rest key

/-- Insert one serialised entry into a key-sorted list (ascending, as the
collaborator sorts plain map keys before emitting them). -/
def insertSorted (p : String × List Char) :
    List (String × List Char) → List (String × List Char)
  | [] => [p]
  | q :: rest => if p.1 < q.1 then p :: q :: rest else q :: insertSorted p rest

/-- Sort serialised entries by key, ascending. -/
def sortPairs : List (String × List Char) → List (String × List Char)
  | [] => []
  | p :: rest => insertSorted p (sortPairs rest)

mutual

/-- The collaborator encoder's compact output for a stored dynamic value.
A nested OrderedMap emits its keys in stored order, looking each value up
in its entries (a missing entry is Go's nil and emits null); a plain map
emits its entries sorted by key.  Serialising the entries pointwise before
assembling the members keeps the recursion structural; the byte output is
that of the source, which looks each value up first and serialises it. -/
def serD (eh : Bool) : DVal → List Char
  | .null => "null".toList
  | .bool true => "true".toList
  | .bool false => "false".toList
  | .num n => intChars n
  | .str s => quote eh s
  | .arr items => '[' :: joinComma (serDList eh items) ++ [']']
  | .gomap g =>
      '{' :: joinComma ((sortPairs (serEntries eh g)).map
        (fun p => quote eh p.1 ++ ':' :: p.2)) ++ ['}']
  | .omap eh2 ks g =>
      '{' :: joinComma (ks.map
        (fun k => quote eh2 k ++ ':' :: ((alGetSer (serEntries eh2 g) k).getD "null".toList)))
        ++ ['}']

/-- Elementwise serialisation of a slice. -/
def serDList (eh : Bool) : List DVal → List (List Char)
  | [] => []
  | d :: rest => serD eh d :: serDList eh rest

/-- Pointwise serialisation of map entries. -/
def serEntries (eh : Bool) : List (String × DVal) → List (String × List Char)
  | [] => []
  | (k, d) :: rest => (k, serD eh d) :: serEntries eh rest

end

/-- MarshalJSON: brace, the comma-separated per-key chunks, brace.  Each
chunk is Encode of the key (its quoted form plus the encoder's newline),
a colon, and Encode of the looked-up value (its serialisation plus the
newline); a missing value is Go's nil and encodes as null. -/
def OMap.marshalJSON (o : OMap) : List Char :=
  '{' :: joinComma (o.keys.map (fun k =>
    (quote o.escapeHTML k ++ ['\n']) ++
      ':' :: (serD o.escapeHTML ((alGet o.values k).getD .null) ++ ['\n']))) ++ ['}']

/-! ### Derived descriptions of the decoder's behaviour

These definitions describe, at the specification level, what the decoder
computes; the theorems below prove the embedded code meets them. -/

/-- One step of the decoder's key bookkeeping: a fresh key is appended, a
key already recorded at this level is moved to the end. -/
def stepKey (ks : List String) (k : String) : List String :=
  if ks.contains k then ks.erase k ++ [k] else ks ++ [k]

/-- The key order the decoder produces for a member list: each distinct
key once, ordered by its last occurrence in the document. -/
def lastWinsKeys (l : List String) : List String := l.foldl stepKey []

/-- One step of the generic unmarshal's key bookkeeping: a fresh key is
appended, a repeated key stays where it first appeared. -/
def addKey (ks : List String) (k : String) : List String :=
  if k ∈ ks then ks else ks ++ [k]

/-- Each distinct key once, ordered by its first occurrence: the entry
order of the phase-1 map. -/
def firstOcc (l : List String) : List String := l.foldl addKey []

/-- The value of the last occurrence of a key in a member list. -/
def lastVal : List (String × JValue) → String → Option JValue
  | [], _ => none
  | (k1, v) :: rest, k =>
      match lastVal rest k with
      | some w => some w
      | none => if k1 = k then some v else none

mutual

/-- The dynamic value a fully decoded document value becomes: scalars as
phase 1 left them, arrays elementwise, every object an OrderedMap whose
keys are in last-occurrence document order and whose entries (in
first-occurrence order, as phase 1 built them) hold the decoded value of
each key's last occurrence. -/
def orderize (eh : Bool) : JValue → DVal
  | .null => .null
  | .bool b => .bool b
  | .num n => .num n
  | .str s => .str s
  | .arr items => .arr (ordList eh items)
  | .obj ms => .omap eh (lastWinsKeys (ms.map Prod.fst)) (ordEntries eh [] ms)

/-- Elementwise decoded value of array items. -/
def ordList (eh : Bool) : List JValue → List DVal
  | [] => []
  | v :: rest => orderize eh v :: ordList eh rest

/-- Decoded entries of an object: each member stored in turn, so a
repeated key keeps its first position and its last (decoded) value. -/
def ordEntries (eh : Bool) (acc : List (String × DVal)) :
    List (String × JValue) → List (String × DVal)
  | [] => acc
  | (k, v) :: rest => ordEntries eh (alSet acc k (orderize eh v)) rest

end

mutual

/-- The simulation relation of the decode proof: Good eh d v says the
stored dynamic value d is the phase-1 value of the document value v with
some of its nested containers already rebuilt as OrderedMaps — the states
d passes through while the decoder walks occurrences of v.  Scalars must
be stored exactly; a stored slice matches elementwise; a stored map
(plain or rebuilt, whose stale key list is irrelevant because the decoder
only reads its entries) must have its entries in first-occurrence order
with each entry Good for the key's last value. -/
inductive Good : Bool → DVal → JValue → Prop where
  | null (eh : Bool) : Good eh .null .null
  | bool (eh : Bool) (b : Bool) : Good eh (.bool b) (.bool b)
  | num (eh : Bool) (n : Int) : Good eh (.num n) (.num n)
  | str (eh : Bool) (s : String) : Good eh (.str s) (.str s)
  | arr (eh : Bool) {l : List DVal} {items : List JValue} :
      GoodList eh l items → Good eh (.arr l) (.arr items)
  | gomap (eh : Bool) {g : List (String × DVal)} {ms : List (String × JValue)} :
      g.map Prod.fst = firstOcc (ms.map Prod.fst) →
      (∀ k v, lastVal ms k = some v → GoodOpt eh (alGet g k) v) →
      Good eh (.gomap g) (.obj ms)
  | omap (eh : Bool) (ks : List String) {g : List (String × DVal)}
      {ms : List (String × JValue)} :
      g.map Prod.fst = firstOcc (ms.map Prod.fst) →
      (∀ k v, lastVal ms k = some v → GoodOpt eh (alGet g k) v) →
      Good eh (.omap eh ks g) (.obj ms)

/-- Elementwise Good for slices. -/
inductive GoodList : Bool → List DVal → List JValue → Prop where
  | nil (eh : Bool) : GoodList eh [] []
  | cons (eh : Bool) {d : DVal} {v : JValue} {ds : List DVal} {vs : List JValue} :
      Good eh d v → GoodList eh ds vs → GoodList eh (d :: ds) (v :: vs)

/-- Good lifted to the result of a lookup: the entry must be present and
Good. -/
inductive GoodOpt : Bool → Option DVal → JValue → Prop where
  | some (eh : Bool) {d : DVal} {v : JValue} : Good eh d v → GoodOpt eh (some d) v

end

/-! ### Token stream basics -/

theorem tokens_length_pos (v : JValue) : 1 ≤ v.tokens.length := by
  cases v <;> simp [JValue.tokens]

theorem tokens_head_not_close (v : JValue) :
    ∀ t ∈ v.tokens.head?, t ≠ .arrClose ∧ t ≠ .objClose := by
  cases v <;> simp [JValue.tokens]

/-! ### The key-order folds -/

theorem mem_stepKey (ks : List String) (k k2 : String) :
    k2 ∈ stepKey ks k ↔ k2 ∈ ks ∨ k2 = k := by
  unfold stepKey
  by_cases h : ks.contains k
  · rw [if_pos h]
    have hk : k ∈ ks := by simpa using h
    simp only [List.mem_append, List.mem_singleton]
    constructor
    · rintro (hm | rfl)
      · exact Or.inl (List.mem_of_mem_erase hm)
      · exact Or.inr rfl
    · rintro (hm | rfl)
      · by_cases he : k2 = k
        · exact Or.inr he
        · exact Or.inl ((List.mem_erase_of_ne he).mpr hm)
      · exact Or.inr rfl
  · rw [if_neg h]
    simp

theorem nodup_stepKey (ks : List String) (k : String) (h : ks.Nodup) :
    (stepKey ks k).Nodup := by
  unfold stepKey
  by_cases hc : ks.contains k
  · rw [if_pos hc]
    refine List.Nodup.append (h.erase k) (List.nodup_singleton k) ?_
    intro a ha hb
    rw [List.mem_singleton] at hb
    subst hb
    exact absurd ha (h.not_mem_erase)
  · rw [if_neg hc]
    refine List.Nodup.append h (List.nodup_singleton k) ?_
    intro a ha hb
    rw [List.mem_singleton] at hb
    subst hb
    exact absurd (by simpa using ha) (by simpa using hc)

theorem mem_foldl_stepKey (l : List String) : ∀ (a : List String) (k2 : String),
    (k2 ∈ l.foldl stepKey a ↔ k2 ∈ a ∨ k2 ∈ l) := by
  induction l with
  | nil => simp
  | cons k rest ih =>
      intro a k2
      rw [List.foldl_cons, ih, mem_stepKey]
      simp only [List.mem_cons]
      tauto

theorem nodup_foldl_stepKey (l : List String) : ∀ (a : List String), a.Nodup →
    (l.foldl stepKey a).Nodup := by
  induction l with
  | nil => exact fun a ha => ha
  | cons k rest ih =>
      intro a ha
      exact ih _ (nodup_stepKey a k ha)

theorem foldl_stepKey_of_nodup (l : List String) : ∀ (a : List String),
    (a ++ l).Nodup → l.foldl stepKey a = a ++ l := by
  induction l with
  | nil => simp
  | cons k rest ih =>
      intro a ha
      have hk : k ∉ a := by
        intro hmem
        have := List.disjoint_of_nodup_append ha
        exact this hmem (by simp)
      have hstep : stepKey a k = a ++ [k] := by
        unfold stepKey
        rw [if_neg (by simpa using hk)]
      rw [List.foldl_cons, hstep, ih (a ++ [k]) (by simpa using ha)]
      simp

theorem mem_addKey (ks : List String) (k k2 : String) :
    k2 ∈ addKey ks k ↔ k2 ∈ ks ∨ k2 = k := by
  unfold addKey
  by_cases h : k ∈ ks
  · rw [if_pos h]
    constructor
    · exact Or.inl
    · rintro (hm | rfl) <;> assumption
  · rw [if_neg h]
    simp

theorem nodup_addKey (ks : List String) (k : String) (h : ks.Nodup) :
    (addKey ks k).Nodup := by
  unfold addKey
  by_cases hc : k ∈ ks
  · rwa [if_pos hc]
  · rw [if_neg hc]
    refine List.Nodup.append h (List.nodup_singleton k) ?_
    intro a ha hb
    rw [List.mem_singleton] at hb
    subst hb
    exact hc ha

theorem mem_foldl_addKey (l : List String) : ∀ (a : List String) (k2 : String),
    (k2 ∈ l.foldl addKey a ↔ k2 ∈ a ∨ k2 ∈ l) := by
  induction l with
  | nil => simp
  | cons k rest ih =>
      intro a k2
      rw [List.foldl_cons, ih, mem_addKey]
      simp only [List.mem_cons]
      tauto

theorem nodup_foldl_addKey (l : List String) : ∀ (a : List String), a.Nodup →
    (l.foldl addKey a).Nodup := by
  induction l with
  | nil => exact fun a ha => ha
  | cons k rest ih =>
      intro a ha
      exact ih _ (nodup_addKey a k ha)

theorem firstOcc_nodup (l : List String) : (firstOcc l).Nodup :=
  nodup_foldl_addKey l [] (List.nodup_nil)

theorem mem_firstOcc (l : List String) (k : String) : k ∈ firstOcc l ↔ k ∈ l := by
  unfold firstOcc
  rw [mem_foldl_addKey]
  simp

theorem mem_lastWinsKeys (l : List String) (k : String) : k ∈ lastWinsKeys l ↔ k ∈ l := by
  unfold lastWinsKeys
  rw [mem_foldl_stepKey]
  simp

theorem lastWinsKeys_nodup (l : List String) : (lastWinsKeys l).Nodup :=
  nodup_foldl_stepKey l [] (List.nodup_nil)

theorem lastWinsKeys_of_nodup (l : List String) (h : l.Nodup) : lastWinsKeys l = l := by
  unfold lastWinsKeys
  rw [foldl_stepKey_of_nodup l [] (by simpa using h)]
  simp

/-! ### Association lists: absent keys and extensionality -/

theorem alGet_eq_none_iff (l : List (String × DVal)) (k : String) :
    alGet l k = none ↔ k ∉ l.map Prod.fst := by
  induction l with
  | nil => simp [alGet]
  | cons p rest ih =>
      obtain ⟨k1, w⟩ := p
      by_cases h : k1 = k
      · simp [alGet, h]
      · simp [alGet, h, ih, Ne.symm h]

theorem al_ext : ∀ (l1 l2 : List (String × DVal)),
    l1.map Prod.fst = l2.map Prod.fst → (l1.map Prod.fst).Nodup →
    (∀ k, alGet l1 k = alGet l2 k) → l1 = l2
  | [], [], _, _, _ => rfl
  | [], (k2, w2) :: t2, hf, _, _ => by simp at hf
  | (k1, w1) :: t1, [], hf, _, _ => by simp at hf
  | (k1, w1) :: t1, (k2, w2) :: t2, hf, hnd, hget => by
      simp only [List.map_cons, List.cons.injEq] at hf
      obtain ⟨rfl, hft⟩ := hf
      have hv : w1 = w2 := by
        have := hget k1
        simpa [alGet] using this
      subst hv
      simp only [List.map_cons, List.nodup_cons] at hnd
      have hndt : (t1.map Prod.fst).Nodup := hnd.2
      have hk1 : k1 ∉ t1.map Prod.fst := hnd.1
      have hrest : t1 = t2 := by
        refine al_ext t1 t2 hft hndt ?_
        intro k
        by_cases hk : k1 = k
        · subst hk
          have h1 : alGet t1 k1 = none := (alGet_eq_none_iff t1 k1).mpr hk1
          have h2 : alGet t2 k1 = none := (alGet_eq_none_iff t2 k1).mpr (hft ▸ hk1)
          rw [h1, h2]
        · have := hget k
          simpa [alGet, hk] using this
      rw [hrest]

/-! ### Last-occurrence lookup -/

theorem lastVal_eq_none_iff : ∀ (ms : List (String × JValue)) (k : String),
    lastVal ms k = none ↔ k ∉ ms.map Prod.fst
  | [], k => by simp [lastVal]
  | (k1, v) :: rest, k => by
      have ih := lastVal_eq_none_iff rest k
      simp only [lastVal, List.map_cons, List.mem_cons]
      cases h : lastVal rest k with
      | some w =>
          have hk : k ∈ rest.map Prod.fst := by
            by_contra hc
            rw [← ih, h] at hc
            exact absurd hc (by simp)
          simp [hk]
      | none =>
          have hk : k ∉ rest.map Prod.fst := ih.mp h
          by_cases h1 : k1 = k
          · subst h1
            simp [hk]
          · rw [if_neg h1]
            constructor
            · intro _
              rintro (hc | hc)
              · exact h1 hc.symm
              · exact hk hc
            · intro _
              rfl

theorem lastVal_mem : ∀ (ms : List (String × JValue)) (k : String) (v : JValue),
    lastVal ms k = some v → (k, v) ∈ ms
  | [], k, v, h => by simp [lastVal] at h
  | (k1, w) :: rest, k, v, h => by
      simp only [lastVal] at h
      cases h2 : lastVal rest k with
      | some u =>
          rw [h2] at h
          simp only [Option.some.injEq] at h
          subst h
          exact List.mem_cons_of_mem _ (lastVal_mem rest k u h2)
      | none =>
          rw [h2] at h
          by_cases h1 : k1 = k
          · subst h1
            simp at h
            subst h
            exact List.mem_cons_self _ _
          · simp [h1] at h

theorem lastVal_cons_of_some (k1 : String) (v : JValue) (rest : List (String × JValue))
    (k : String) (u : JValue) (h : lastVal rest k = some u) :
    lastVal ((k1, v) :: rest) k = some u := by
  simp [lastVal, h]

theorem lastVal_cons_of_none (k1 : String) (v : JValue) (rest : List (String × JValue))
    (k : String) (h : lastVal rest k = none) :
    lastVal ((k1, v) :: rest) k = if k1 = k then some v else none := by
  simp [lastVal, h]

/-! ### The phase-1 map and the expected decode result, pointwise -/

theorem goMembers_map_fst : ∀ (ms : List (String × JValue)) (acc : List (String × DVal)),
    (goMembers acc ms).map Prod.fst = (ms.map Prod.fst).foldl addKey (acc.map Prod.fst)
  | [], acc => by simp [goMembers]
  | (k, v) :: rest, acc => by
      simp only [goMembers, List.map_cons, List.foldl_cons]
      rw [goMembers_map_fst rest _, alSet_map_fst]
      rfl

theorem alGet_goMembers_of_none : ∀ (ms : List (String × JValue))
    (acc : List (String × DVal)) (k : String),
    k ∉ ms.map Prod.fst → alGet (goMembers acc ms) k = alGet acc k
  | [], acc, k, _ => by simp [goMembers]
  | (k1, w) :: rest, acc, k, h => by
      simp only [List.map_cons, List.mem_cons] at h
      push_neg at h
      simp only [goMembers]
      rw [alGet_goMembers_of_none rest _ k (h.2)]
      exact alGet_alSet_ne acc k1 k (goVal w) (h.1)

theorem alGet_goMembers_of_some : ∀ (ms : List (String × JValue))
    (acc : List (String × DVal)) (k : String) (v : JValue),
    lastVal ms k = some v → alGet (goMembers acc ms) k = some (goVal v)
  | [], acc, k, v, h => by simp [lastVal] at h
  | (k1, w) :: rest, acc, k, v, h => by
      simp only [lastVal] at h
      simp only [goMembers]
      cases h2 : lastVal rest k with
      | some u =>
          rw [h2] at h
          simp only [Option.some.injEq] at h
          subst h
          exact alGet_goMembers_of_some rest _ k u h2
      | none =>
          rw [h2] at h
          by_cases h1 : k1 = k
          · subst h1
            simp at h
            subst h
            rw [alGet_goMembers_of_none rest _ k1 ((lastVal_eq_none_iff rest k1).mp h2)]
            exact alGet_alSet_self acc k1 (goVal w)
          · simp [h1] at h

theorem ordEntries_map_fst : ∀ (ms : List (String × JValue)) (eh : Bool)
    (acc : List (String × DVal)),
    (ordEntries eh acc ms).map Prod.fst = (ms.map Prod.fst).foldl addKey (acc.map Prod.fst)
  | [], eh, acc => by simp [ordEntries]
  | (k, v) :: rest, eh, acc => by
      simp only [ordEntries, List.map_cons, List.foldl_cons]
      rw [ordEntries_map_fst rest eh _, alSet_map_fst]
      rfl

theorem alGet_ordEntries_of_none : ∀ (ms : List (String × JValue)) (eh : Bool)
    (acc : List (String × DVal)) (k : String),
    k ∉ ms.map Prod.fst → alGet (ordEntries eh acc ms) k = alGet acc k
  | [], eh, acc, k, _ => by simp [ordEntries]
  | (k1, w) :: rest, eh, acc, k, h => by
      simp only [List.map_cons, List.mem_cons] at h
      push_neg at h
      simp only [ordEntries]
      rw [alGet_ordEntries_of_none rest eh _ k (h.2)]
      exact alGet_alSet_ne acc k1 k (orderize eh w) (h.1)

theorem alGet_ordEntries_of_some : ∀ (ms : List (String × JValue)) (eh : Bool)
    (acc : List (String × DVal)) (k : String) (v : JValue),
    lastVal ms k = some v → alGet (ordEntries eh acc ms) k = some (orderize eh v)
  | [], eh, acc, k, v, h => by simp [lastVal] at h
  | (k1, w) :: rest, eh, acc, k, v, h => by
      simp only [lastVal] at h
      simp only [ordEntries]
      cases h2 : lastVal rest k with
      | some u =>
          rw [h2] at h
          simp only [Option.some.injEq] at h
          subst h
          exact alGet_ordEntries_of_some rest eh _ k u h2
      | none =>
          rw [h2] at h
          by_cases h1 : k1 = k
          · subst h1
            simp at h
            subst h
            rw [alGet_ordEntries_of_none rest eh _ k1 ((lastVal_eq_none_iff rest k1).mp h2)]
            exact alGet_alSet_self acc k1 (orderize eh w)
          · simp [h1] at h

theorem ordList_length (eh : Bool) : ∀ (items : List JValue),
    (ordList eh items).length = items.length
  | [] => by simp [ordList]
  | v :: rest => by simp [ordList, ordList_length eh rest]

theorem ordList_get? (eh : Bool) : ∀ (items : List JValue) (i : Nat),
    (ordList eh items)[i]? = (items[i]?).map (orderize eh)
  | [], i => by simp [ordList]
  | v :: rest, 0 => by simp [ordList]
  | v :: rest, i + 1 => by
      simp only [ordList, List.getElem?_cons_succ]
      exact ordList_get? eh rest i

/-! ### Good: base case, inversions, and list forms -/

theorem goodOpt_inv {eh : Bool} {o : Option DVal} {v : JValue} (h : GoodOpt eh o v) :
    ∃ d, o = some d ∧ Good eh d v := by
  cases h with
  | some hg => exact ⟨_, rfl, hg⟩

theorem good_null_eq {eh : Bool} {d : DVal} (h : Good eh d .null) : d = .null := by
  cases h
  rfl

theorem good_bool_eq {eh : Bool} {d : DVal} {b : Bool} (h : Good eh d (.bool b)) :
    d = .bool b := by
  cases h
  rfl

theorem good_num_eq {eh : Bool} {d : DVal} {n : Int} (h : Good eh d (.num n)) :
    d = .num n := by
  cases h
  rfl

theorem good_str_eq {eh : Bool} {d : DVal} {s : String} (h : Good eh d (.str s)) :
    d = .str s := by
  cases h
  rfl

theorem good_arr_inv {eh : Bool} {d : DVal} {items : List JValue}
    (h : Good eh d (.arr items)) : ∃ l, d = .arr l ∧ GoodList eh l items := by
  cases h with
  | arr hl => exact ⟨_, rfl, hl⟩

theorem good_obj_inv {eh : Bool} {d : DVal} {ms : List (String × JValue)}
    (h : Good eh d (.obj ms)) :
    ∃ g, (d = .gomap g ∨ ∃ ks, d = .omap eh ks g) ∧
      g.map Prod.fst = firstOcc (ms.map Prod.fst) ∧
      (∀ k v, lastVal ms k = some v → ∃ d2, alGet g k = some d2 ∧ Good eh d2 v) := by
  cases h with
  | gomap hf hp =>
      refine ⟨_, Or.inl rfl, hf, fun k v hlv => ?_⟩
      obtain ⟨d2, hd2, hg⟩ := goodOpt_inv (hp k v hlv)
      exact ⟨d2, hd2, hg⟩
  | omap ks hf hp =>
      refine ⟨_, Or.inr ⟨ks, rfl⟩, hf, fun k v hlv => ?_⟩
      obtain ⟨d2, hd2, hg⟩ := goodOpt_inv (hp k v hlv)
      exact ⟨d2, hd2, hg⟩

theorem goodList_length {eh : Bool} : ∀ {l : List DVal} {items : List JValue},
    GoodList eh l items → l.length = items.length
  | [], [], _ => rfl
  | [], _ :: _, h => by cases h
  | _ :: _, [], h => by cases h
  | d :: ds, v :: vs, h => by
      cases h with
      | cons _ hrest => simpa using goodList_length hrest

theorem goodList_get? {eh : Bool} : ∀ {l : List DVal} {items : List JValue},
    GoodList eh l items → ∀ (i : Nat) (d : DVal) (v : JValue),
      l[i]? = some d → items[i]? = some v → Good eh d v
  | [], _, h => by
      cases h
      intro i d v hd
      simp at hd
  | _ :: _, _, h => by
      cases h with
      | cons hg hrest =>
          intro i d v hd hv
          match i with
          | 0 =>
              simp only [List.getElem?_cons_zero, Option.some.injEq] at hd hv
              rw [← hd, ← hv]
              exact hg
          | i + 1 =>
              simp only [List.getElem?_cons_succ] at hd hv
              exact goodList_get? hrest i d v hd hv

theorem goodList_of_get? {eh : Bool} : ∀ (l : List DVal) (items : List JValue),
    l.length = items.length →
    (∀ (i : Nat) (d : DVal) (v : JValue), l[i]? = some d → items[i]? = some v →
      Good eh d v) →
    GoodList eh l items
  | [], [], _, _ => GoodList.nil eh
  | [], _ :: _, hl, _ => by simp at hl
  | _ :: _, [], hl, _ => by simp at hl
  | d :: ds, v :: vs, hl, hp => by
      refine GoodList.cons eh (hp 0 d v (by simp) (by simp)) ?_
      refine goodList_of_get? ds vs (by simpa using hl) ?_
      intro i d2 v2 hd hv
      exact hp (i + 1) d2 v2 (by simpa using hd) (by simpa using hv)

mutual

theorem good_goVal : ∀ (eh : Bool) (v : JValue), Good eh (goVal v) v
  | eh, .null => by
      simp only [goVal]
      exact Good.null eh
  | eh, .bool b => by
      simp only [goVal]
      exact Good.bool eh b
  | eh, .num n => by
      simp only [goVal]
      exact Good.num eh n
  | eh, .str s => by
      simp only [goVal]
      exact Good.str eh s
  | eh, .arr items => by
      simp only [goVal]
      exact Good.arr eh (goodList_goList eh items)
  | eh, .obj ms => by
      simp only [goVal]
      refine Good.gomap eh ?_ ?_
      · rw [goMembers_map_fst]
        simp [firstOcc]
      · intro k v hlv
        rw [alGet_goMembers_of_some ms [] k v hlv]
        exact GoodOpt.some eh (good_goVal_of_mem eh ms k v (lastVal_mem ms k v hlv))

theorem goodList_goList : ∀ (eh : Bool) (items : List JValue),
    GoodList eh (goList items) items
  | eh, [] => by
      simp only [goList]
      exact GoodList.nil eh
  | eh, v :: rest => by
      simp only [goList]
      exact GoodList.cons eh (good_goVal eh v) (goodList_goList eh rest)

theorem good_goVal_of_mem : ∀ (eh : Bool) (ms : List (String × JValue)) (k : String)
    (v : JValue), (k, v) ∈ ms → Good eh (goVal v) v
  | eh, [], k, v, h => by simp at h
  | eh, (k1, w) :: rest, k, v, h => by
      rcases List.mem_cons.mp h with heq | hm
      · cases heq
        exact good_goVal eh w
      · exact good_goVal_of_mem eh rest k v hm

end

/-! ### Decoder step lemmas and key-bookkeeping bridges -/

theorem contains_eq_of_mem_iff {l1 l2 : List String} (h : ∀ a, a ∈ l1 ↔ a ∈ l2) (a : String) :
    l1.contains a = l2.contains a := by
  apply Bool.coe_iff_coe.mp
  simpa using h a

/-- Membership transfer from a pointwise contains equation. -/
theorem mem_iff_of_contains_eq {l1 l2 : List String}
    (h : ∀ a, l1.contains a = l2.contains a) (a : String) : a ∈ l1 ↔ a ∈ l2 := by
  have heq := h a
  constructor
  · intro ha
    have h1 : l1.contains a = true := by simpa using ha
    rw [heq] at h1
    simpa using h1
  · intro ha
    have h1 : l2.contains a = true := by simpa using ha
    rw [← heq] at h1
    simpa using h1

/-- Under the hasKey invariant, the decoder's two key-recording branches
compute exactly stepKey. -/
theorem decoder_keys_eq (keys hk : List String) (k : String)
    (hinv : ∀ k2, hk.contains k2 = keys.contains k2) :
    (if hk.contains k then dupShift keys k else keys ++ [k]) = stepKey keys k := by
  rw [hinv k]
  unfold stepKey dupShift
  by_cases hm : k ∈ keys <;> simp [hm]

/-- The hasKey invariant survives one key-recording step. -/
theorem decoder_inv_step (keys hk : List String) (k : String)
    (hinv : ∀ k2, hk.contains k2 = keys.contains k2) (k2 : String) :
    (if hk.contains k then hk else k :: hk).contains k2 = (stepKey keys k).contains k2 := by
  have hiff := mem_iff_of_contains_eq hinv
  by_cases h : hk.contains k
  · rw [if_pos h]
    refine contains_eq_of_mem_iff ?_ k2
    intro a
    rw [mem_stepKey]
    constructor
    · intro ha
      exact Or.inl ((hiff a).mp ha)
    · rintro (ha | rfl)
      · exact (hiff a).mpr ha
      · simpa using h
  · rw [if_neg h]
    refine contains_eq_of_mem_iff ?_ k2
    intro a
    rw [mem_stepKey, List.mem_cons]
    constructor
    · rintro (rfl | ha)
      · exact Or.inr rfl
      · exact Or.inl ((hiff a).mp ha)
    · rintro (ha | rfl)
      · exact Or.inr ((hiff a).mpr ha)
      · exact Or.inl rfl

/-- decodeSlice at a token that is not the closing delimiter hands the
token to the value switch. -/
theorem decodeSlice_step (eh : Bool) (f : Nat) (t : Token) (ts : List Token) (index : Nat)
    (s : List DVal) (h : t ≠ .arrClose) :
    decodeSlice eh (f + 1) (t :: ts) index s =
      match decodeValue eh f (t :: ts) s[index]? with
      | some (none, rest2) => decodeSlice eh f rest2 (index + 1) s
      | some (some newVal, rest2) => decodeSlice eh f rest2 (index + 1) (s.set index newVal)
      | none => none := by
  cases t <;> first
    | exact absurd rfl h
    | simp [decodeSlice]

theorem tokensMembers_cons (k : String) (v : JValue) (ms : List (String × JValue)) :
    tokensMembers ((k, v) :: ms) = .tstr k :: (v.tokens ++ tokensMembers ms) := by
  simp [tokensMembers]

theorem tokensList_cons (v : JValue) (items : List JValue) :
    tokensList (v :: items) = v.tokens ++ tokensList items := by
  simp [tokensList]

/-! ### Duplicate keys: predicates for CheckDuplicate -/

mutual

/-- No object anywhere in the document repeats a key.  The object case
scans members left to right against the keys already seen, exactly as
CheckDuplicate does. -/
def JValue.noDup : JValue → Bool
  | .null => true
  | .bool _ => true
  | .num _ => true
  | .str _ => true
  | .arr items => noDupList items
  | .obj ms => noDupScan [] ms

/-- Elementwise noDup for array items. -/
def noDupList : List JValue → Bool
  | [] => true
  | v :: rest => v.noDup && noDupList rest

/-- The member scan of one object level: a member is clean when its key
was not seen before at this level and its value is clean. -/
def noDupScan (seen : List String) : List (String × JValue) → Bool
  | [] => true
  | (k, v) :: rest => !(seen.contains k) && v.noDup && noDupScan (k :: seen) rest

end

mutual

/-- The key k is repeated within some single object of the document. -/
def JValue.dupKeyIn : JValue → String → Bool
  | .null, _ => false
  | .bool _, _ => false
  | .num _, _ => false
  | .str _, _ => false
  | .arr items, k => dupKeyInList items k
  | .obj ms, k => decide (2 ≤ (ms.map Prod.fst).count k) || dupKeyInMembers ms k

/-- The key is repeated inside some array element. -/
def dupKeyInList : List JValue → String → Bool
  | [], _ => false
  | v :: rest, k => v.dupKeyIn k || dupKeyInList rest k

/-- The key is repeated inside some member value. -/
def dupKeyInMembers : List (String × JValue) → String → Bool
  | [], _ => false
  | (_, v) :: rest, k => v.dupKeyIn k || dupKeyInMembers rest k

end

/-- checkDupArr at a token that is not the closing delimiter checks one
element. -/
theorem checkDupArr_step (f : Nat) (t : Token) (ts : List Token) (h : t ≠ .arrClose) :
    checkDupArr (f + 1) (t :: ts) =
      match checkDuplicate f (t :: ts) with
      | .ok rest2 => checkDupArr f rest2
      | .error e => .error e := by
  cases t <;> first
    | exact absurd rfl h
    | simp [checkDupArr]

/-! ### The master decode theorem

Three mutually inductive statements over the document structure, each
quantified over enough fuel.  For decodeValue: the value's tokens are
consumed exactly; a replacement is only produced when a stored value was
consulted; the transformation preserves Good for whatever document value
the stored value was Good for (the stored value may belong to a later
occurrence of the same key); and when the stored value is Good for this
very value, the stored result is exactly its decoded form. -/

mutual

theorem decodeValue_spec : ∀ (w : JValue) (eh : Bool) (fuel : Nat) (rest : List Token)
    (cur : Option DVal), w.tokens.length + 1 ≤ fuel →
    ∃ st, decodeValue eh fuel (w.tokens ++ rest) cur = some (st, rest) ∧
      (st.isSome = true → cur.isSome = true) ∧
      (∀ (v2 : JValue) (d : DVal), cur = some d → Good eh d v2 → Good eh (st.getD d) v2) ∧
      (∀ d : DVal, cur = some d → Good eh d w → st.getD d = orderize eh w)
  | .null, eh, fuel, rest, cur, hfuel => by
      obtain ⟨f, rfl⟩ : ∃ f, fuel = f + 1 := ⟨fuel - 1, by omega⟩
      refine ⟨none, by simp [JValue.tokens, decodeValue], by simp, ?_, ?_⟩
      · intro v2 d hc hg
        simpa using hg
      · intro d hc hg
        simp [good_null_eq hg, orderize]
  | .bool b, eh, fuel, rest, cur, hfuel => by
      obtain ⟨f, rfl⟩ : ∃ f, fuel = f + 1 := ⟨fuel - 1, by omega⟩
      refine ⟨none, by simp [JValue.tokens, decodeValue], by simp, ?_, ?_⟩
      · intro v2 d hc hg
        simpa using hg
      · intro d hc hg
        simp [good_bool_eq hg, orderize]
  | .num n, eh, fuel, rest, cur, hfuel => by
      obtain ⟨f, rfl⟩ : ∃ f, fuel = f + 1 := ⟨fuel - 1, by omega⟩
      refine ⟨none, by simp [JValue.tokens, decodeValue], by simp, ?_, ?_⟩
      · intro v2 d hc hg
        simpa using hg
      · intro d hc hg
        simp [good_num_eq hg, orderize]
  | .str s, eh, fuel, rest, cur, hfuel => by
      obtain ⟨f, rfl⟩ : ∃ f, fuel = f + 1 := ⟨fuel - 1, by omega⟩
      refine ⟨none, by simp [JValue.tokens, decodeValue], by simp, ?_, ?_⟩
      · intro v2 d hc hg
        simpa using hg
      · intro d hc hg
        simp [good_str_eq hg, orderize]
  | .arr items, eh, fuel, rest, cur, hfuel => by
      obtain ⟨f, rfl⟩ : ∃ f, fuel = f + 1 := ⟨fuel - 1, by omega⟩
      have hlen : (JValue.tokens (.arr items)).length = (tokensList items).length + 2 := by
        simp [JValue.tokens]
      have hbound : (tokensList items).length + 2 ≤ f := by omega
      have hstream : JValue.tokens (.arr items) ++ rest =
          .arrOpen :: (tokensList items ++ .arrClose :: rest) := by
        simp [JValue.tokens]
      rw [hstream]
      cases cur with
      | none =>
          obtain ⟨s2, heq, _, _, _, _, _⟩ := decodeSlice_spec items eh f rest 0 [] hbound
          refine ⟨none, ?_, by simp, ?_, ?_⟩
          · simp only [decodeValue, heq]
          · intro v2 d hc
            cases hc
          · intro d hc
            cases hc
      | some d0 =>
          cases d0 with
          | arr l =>
              obtain ⟨s2, heq, hlen2, hlt, hge, hpres, hcorr⟩ :=
                decodeSlice_spec items eh f rest 0 l hbound
              refine ⟨some (.arr s2), ?_, fun _ => rfl, ?_, ?_⟩
              · simp only [decodeValue, heq]
              · intro v2 d hc hg
                have hd : d = .arr l := by
                  injection hc with hc2
                  exact hc2.symm
                subst hd
                cases hg with
                | arr hgl =>
                    simp only [Option.getD_some]
                    refine Good.arr eh (goodList_of_get? s2 _ ?_ ?_)
                    · rw [hlen2]
                      exact goodList_length hgl
                    · intro i d2 u2 hd2 hu2
                      have hi2 : i < s2.length := (List.getElem?_eq_some.mp hd2).1
                      have hil : i < l.length := by
                        rw [← hlen2]
                        exact hi2
                      have hdo := List.getElem?_eq_getElem hil
                      have hgOrig : Good eh (l.get ⟨i, hil⟩) u2 := by
                        refine goodList_get? hgl i _ u2 ?_ hu2
                        rw [hdo, List.get_eq_getElem]
                      by_cases hi : i < items.length
                      · obtain ⟨d3, hd3, hgood3⟩ := hpres i u2 (l.get ⟨i, hil⟩)
                          (by rw [show (0 : Nat) + i = i by omega, hdo, List.get_eq_getElem])
                          hgOrig hi
                        rw [show (0 : Nat) + i = i by omega] at hd3
                        rw [hd3] at hd2
                        injection hd2 with hdd
                        rw [← hdd]
                        exact hgood3
                      · have hu := hge i (by omega)
                        rw [show (0 : Nat) + i = i by omega] at hu
                        rw [hu, hdo] at hd2
                        injection hd2 with hdd
                        rw [← hdd]
                        simpa [List.get_eq_getElem] using hgOrig
              · intro d hc hg
                have hd : d = .arr l := by
                  injection hc with hc2
                  exact hc2.symm
                subst hd
                cases hg with
                | arr hgl =>
                    simp only [Option.getD_some, orderize]
                    congr 1
                    have hlitems : l.length = items.length := goodList_length hgl
                    refine List.ext_getElem?_iff.mpr ?_
                    intro i
                    by_cases hi : i < items.length
                    · have hil : i < l.length := by omega
                      have hdo := List.getElem?_eq_getElem hil
                      have hgOrig : Good eh (l.get ⟨i, hil⟩) (items.get ⟨i, hi⟩) := by
                        refine goodList_get? hgl i _ _ ?_ ?_
                        · rw [hdo, List.get_eq_getElem]
                        · rw [List.getElem?_eq_getElem hi, List.get_eq_getElem]
                      have hcc := hcorr i hi (l.get ⟨i, hil⟩)
                        (by rw [show (0 : Nat) + i = i by omega, hdo, List.get_eq_getElem])
                        hgOrig
                      rw [show (0 : Nat) + i = i by omega] at hcc
                      rw [hcc, ordList_get?, List.getElem?_eq_getElem hi]
                      simp [List.get_eq_getElem]
                    · have h1 : s2[i]? = none := List.getElem?_eq_none (by omega)
                      have h2 : (ordList eh items)[i]? = none := List.getElem?_eq_none (by
                        rw [ordList_length]
                        omega)
                      rw [h1, h2]
          | null =>
              obtain ⟨s2, heq, _, _, _, _, _⟩ := decodeSlice_spec items eh f rest 0 [] hbound
              refine ⟨none, by simp only [decodeValue, heq], by simp, ?_, ?_⟩
              · intro v2 d hc hg
                simpa using hg
              · intro d hc hg
                have hd : d = .null := by
                  injection hc with hc2
                  exact hc2.symm
                subst hd
                cases hg
          | bool b =>
              obtain ⟨s2, heq, _, _, _, _, _⟩ := decodeSlice_spec items eh f rest 0 [] hbound
              refine ⟨none, by simp only [decodeValue, heq], by simp, ?_, ?_⟩
              · intro v2 d hc hg
                simpa using hg
              · intro d hc hg
                have hd : d = .bool b := by
                  injection hc with hc2
                  exact hc2.symm
                subst hd
                cases hg
          | num n =>
              obtain ⟨s2, heq, _, _, _, _, _⟩ := decodeSlice_spec items eh f rest 0 [] hbound
              refine ⟨none, by simp only [decodeValue, heq], by simp, ?_, ?_⟩
              · intro v2 d hc hg
                simpa using hg
              · intro d hc hg
                have hd : d = .num n := by
                  injection hc with hc2
                  exact hc2.symm
                subst hd
                cases hg
          | str s =>
              obtain ⟨s2, heq, _, _, _, _, _⟩ := decodeSlice_spec items eh f rest 0 [] hbound
              refine ⟨none, by simp only [decodeValue, heq], by simp, ?_, ?_⟩
              · intro v2 d hc hg
                simpa using hg
              · intro d hc hg
                have hd : d = .str s := by
                  injection hc with hc2
                  exact hc2.symm
                subst hd
                cases hg
          | gomap g =>
              obtain ⟨s2, heq, _, _, _, _, _⟩ := decodeSlice_spec items eh f rest 0 [] hbound
              refine ⟨none, by simp only [decodeValue, heq], by simp, ?_, ?_⟩
              · intro v2 d hc hg
                simpa using hg
              · intro d hc hg
                have hd : d = .gomap g := by
                  injection hc with hc2
                  exact hc2.symm
                subst hd
                cases hg
          | omap eh0 ks0 g0 =>
              obtain ⟨s2, heq, _, _, _, _, _⟩ := decodeSlice_spec items eh f rest 0 [] hbound
              refine ⟨none, by simp only [decodeValue, heq], by simp, ?_, ?_⟩
              · intro v2 d hc hg
                simpa using hg
              · intro d hc hg
                have hd : d = .omap eh0 ks0 g0 := by
                  injection hc with hc2
                  exact hc2.symm
                subst hd
                cases hg
  | .obj ms, eh, fuel, rest, cur, hfuel => by
      obtain ⟨f, rfl⟩ : ∃ f, fuel = f + 1 := ⟨fuel - 1, by omega⟩
      have hlen : (JValue.tokens (.obj ms)).length = (tokensMembers ms).length + 2 := by
        simp [JValue.tokens]
      have hbound : (tokensMembers ms).length + 1 ≤ f := by omega
      have hstream : JValue.tokens (.obj ms) ++ rest =
          .objOpen :: (tokensMembers ms ++ .objClose :: rest) := by
        simp [JValue.tokens]
      rw [hstream]
      have hinv0 : ∀ k2, ([] : List String).contains k2 = ([] : List String).contains k2 :=
        fun _ => rfl
      cases cur with
      | none =>
          obtain ⟨V, heq, _, _, _, _⟩ := decodeOrderedMap_spec ms eh f rest [] [] [] hbound hinv0
          refine ⟨none, by simp only [decodeValue, heq], by simp, ?_, ?_⟩
          · intro v2 d hc
            cases hc
          · intro d hc
            cases hc
      | some d0 =>
          cases d0 with
          | gomap g =>
              obtain ⟨V, heq, hfst, hunt, hpres, hcorr⟩ :=
                decodeOrderedMap_spec ms eh f rest [] [] g hbound hinv0
              refine ⟨some (.omap eh ((ms.map Prod.fst).foldl stepKey []) V),
                by simp only [decodeValue, heq], fun _ => rfl, ?_, ?_⟩
              · intro v2 d hc hg
                have hd : d = .gomap g := by
                  injection hc with hc2
                  exact hc2.symm
                subst hd
                cases hg with
                | gomap hf hp =>
                    simp only [Option.getD_some]
                    refine Good.omap eh _ ?_ ?_
                    · rw [hfst]
                      exact hf
                    · intro k2 u2 hlv
                      obtain ⟨d2, hd2, hgood2⟩ := goodOpt_inv (hp k2 u2 hlv)
                      obtain ⟨d3, hd3, hgood3⟩ := hpres k2 u2 d2 hd2 hgood2
                      rw [hd3]
                      exact GoodOpt.some eh hgood3
              · intro d hc hg
                have hd : d = .gomap g := by
                  injection hc with hc2
                  exact hc2.symm
                subst hd
                cases hg with
                | gomap hf hp =>
                    simp only [Option.getD_some, orderize]
                    have hGL : ∀ (k3 : String) (u : JValue), lastVal ms k3 = some u →
                        ∃ d2, alGet g k3 = some d2 ∧ Good eh d2 u := by
                      intro k3 u h3
                      exact goodOpt_inv (hp k3 u h3)
                    have hVeq : V = ordEntries eh [] ms := by
                      apply al_ext
                      · rw [hfst, hf, ordEntries_map_fst]
                        simp [firstOcc]
                      · rw [hfst, hf]
                        exact firstOcc_nodup _
                      · intro k2
                        cases h2 : lastVal ms k2 with
                        | some u =>
                            rw [hcorr hGL k2 u h2, alGet_ordEntries_of_some ms eh [] k2 u h2]
                        | none =>
                            have hnm : k2 ∉ ms.map Prod.fst := (lastVal_eq_none_iff ms k2).mp h2
                            rw [hunt k2 hnm, alGet_ordEntries_of_none ms eh [] k2 hnm]
                            simp only [alGet]
                            rw [alGet_eq_none_iff, hf, mem_firstOcc]
                            exact hnm
                    rw [hVeq]
                    rfl
          | omap eh0 ks0 g0 =>
              obtain ⟨V, heq, hfst, hunt, hpres, hcorr⟩ :=
                decodeOrderedMap_spec ms eh f rest [] [] g0 hbound hinv0
              refine ⟨some (.omap eh ((ms.map Prod.fst).foldl stepKey []) V),
                by simp only [decodeValue, heq], fun _ => rfl, ?_, ?_⟩
              · intro v2 d hc hg
                have hd : d = .omap eh0 ks0 g0 := by
                  injection hc with hc2
                  exact hc2.symm
                subst hd
                cases hg with
                | omap ks hf hp =>
                    simp only [Option.getD_some]
                    refine Good.omap eh _ ?_ ?_
                    · rw [hfst]
                      exact hf
                    · intro k2 u2 hlv
                      obtain ⟨d2, hd2, hgood2⟩ := goodOpt_inv (hp k2 u2 hlv)
                      obtain ⟨d3, hd3, hgood3⟩ := hpres k2 u2 d2 hd2 hgood2
                      rw [hd3]
                      exact GoodOpt.some eh hgood3
              · intro d hc hg
                have hd : d = .omap eh0 ks0 g0 := by
                  injection hc with hc2
                  exact hc2.symm
                subst hd
                cases hg with
                | omap ks hf hp =>
                    simp only [Option.getD_some, orderize]
                    have hGL : ∀ (k3 : String) (u : JValue), lastVal ms k3 = some u →
                        ∃ d2, alGet g0 k3 = some d2 ∧ Good eh d2 u := by
                      intro k3 u h3
                      exact goodOpt_inv (hp k3 u h3)
                    have hVeq : V = ordEntries eh [] ms := by
                      apply al_ext
                      · rw [hfst, hf, ordEntries_map_fst]
                        simp [firstOcc]
                      · rw [hfst, hf]
                        exact firstOcc_nodup _
                      · intro k2
                        cases h2 : lastVal ms k2 with
                        | some u =>
                            rw [hcorr hGL k2 u h2, alGet_ordEntries_of_some ms eh [] k2 u h2]
                        | none =>
                            have hnm : k2 ∉ ms.map Prod.fst := (lastVal_eq_none_iff ms k2).mp h2
                            rw [hunt k2 hnm, alGet_ordEntries_of_none ms eh [] k2 hnm]
                            simp only [alGet]
                            rw [alGet_eq_none_iff, hf, mem_firstOcc]
                            exact hnm
                    rw [hVeq]
                    rfl
          | null =>
              obtain ⟨V, heq, _, _, _, _⟩ :=
                decodeOrderedMap_spec ms eh f rest [] [] [] hbound hinv0
              refine ⟨none, by simp only [decodeValue, heq], by simp, ?_, ?_⟩
              · intro v2 d hc hg
                simpa using hg
              · intro d hc hg
                have hd : d = .null := by
                  injection hc with hc2
                  exact hc2.symm
                subst hd
                cases hg
          | bool b =>
              obtain ⟨V, heq, _, _, _, _⟩ :=
                decodeOrderedMap_spec ms eh f rest [] [] [] hbound hinv0
              refine ⟨none, by simp only [decodeValue, heq], by simp, ?_, ?_⟩
              · intro v2 d hc hg
                simpa using hg
              · intro d hc hg
                have hd : d = .bool b := by
                  injection hc with hc2
                  exact hc2.symm
                subst hd
                cases hg
          | num n =>
              obtain ⟨V, heq, _, _, _, _⟩ :=
                decodeOrderedMap_spec ms eh f rest [] [] [] hbound hinv0
              refine ⟨none, by simp only [decodeValue, heq], by simp, ?_, ?_⟩
              · intro v2 d hc hg
                simpa using hg
              · intro d hc hg
                have hd : d = .num n := by
                  injection hc with hc2
                  exact hc2.symm
                subst hd
                cases hg
          | str s =>
              obtain ⟨V, heq, _, _, _, _⟩ :=
                decodeOrderedMap_spec ms eh f rest [] [] [] hbound hinv0
              refine ⟨none, by simp only [decodeValue, heq], by simp, ?_, ?_⟩
              · intro v2 d hc hg
                simpa using hg
              · intro d hc hg
                have hd : d = .str s := by
                  injection hc with hc2
                  exact hc2.symm
                subst hd
                cases hg
          | arr l =>
              obtain ⟨V, heq, _, _, _, _⟩ :=
                decodeOrderedMap_spec ms eh f rest [] [] [] hbound hinv0
              refine ⟨none, by simp only [decodeValue, heq], by simp, ?_, ?_⟩
              · intro v2 d hc hg
                simpa using hg
              · intro d hc hg
                have hd : d = .arr l := by
                  injection hc with hc2
                  exact hc2.symm
                subst hd
                cases hg

theorem decodeOrderedMap_spec : ∀ (ms : List (String × JValue)) (eh : Bool) (fuel : Nat)
    (rest : List Token) (keys hk : List String) (vals : List (String × DVal)),
    (tokensMembers ms).length + 1 ≤ fuel →
    (∀ k2, hk.contains k2 = keys.contains k2) →
    ∃ V, decodeOrderedMap eh fuel (tokensMembers ms ++ .objClose :: rest) keys hk vals =
        some ((ms.map Prod.fst).foldl stepKey keys, V, rest) ∧
      V.map Prod.fst = vals.map Prod.fst ∧
      (∀ k2, k2 ∉ ms.map Prod.fst → alGet V k2 = alGet vals k2) ∧
      (∀ (k2 : String) (v2 : JValue) (d : DVal), alGet vals k2 = some d → Good eh d v2 →
        ∃ d2, alGet V k2 = some d2 ∧ Good eh d2 v2) ∧
      ((∀ (k3 : String) (u : JValue), lastVal ms k3 = some u →
          ∃ d, alGet vals k3 = some d ∧ Good eh d u) →
        ∀ (k3 : String) (u : JValue), lastVal ms k3 = some u →
          alGet V k3 = some (orderize eh u))
  | [], eh, fuel, rest, keys, hk, vals, hfuel, hinv => by
      obtain ⟨f, rfl⟩ : ∃ f, fuel = f + 1 := ⟨fuel - 1, by omega⟩
      refine ⟨vals, ?_, rfl, fun _ _ => rfl, fun k2 v2 d hd hg => ⟨d, hd, hg⟩, ?_⟩
      · simp [tokensMembers, decodeOrderedMap]
      · intro _ k3 u hlv
        simp [lastVal] at hlv
  | (k, v) :: ms', eh, fuel, rest, keys, hk, vals, hfuel, hinv => by
      obtain ⟨f, rfl⟩ : ∃ f, fuel = f + 1 := ⟨fuel - 1, by omega⟩
      have hlen : (tokensMembers ((k, v) :: ms')).length =
          v.tokens.length + (tokensMembers ms').length + 1 := by
        simp [tokensMembers]
      have hvb : v.tokens.length + 1 ≤ f := by omega
      have hmb : (tokensMembers ms').length + 1 ≤ f := by omega
      obtain ⟨st, heqV, hsome, hpresV, hcorrV⟩ :=
        decodeValue_spec v eh f (tokensMembers ms' ++ .objClose :: rest) (alGet vals k) hvb
      have hkeys1 := decoder_keys_eq keys hk k hinv
      have hinv1 := decoder_inv_step keys hk k hinv
      have hrun : decodeOrderedMap eh (f + 1)
            (tokensMembers ((k, v) :: ms') ++ .objClose :: rest) keys hk vals =
          (match st with
           | none => decodeOrderedMap eh f (tokensMembers ms' ++ .objClose :: rest)
              (stepKey keys k) (if hk.contains k then hk else k :: hk) vals
           | some x => decodeOrderedMap eh f (tokensMembers ms' ++ .objClose :: rest)
              (stepKey keys k) (if hk.contains k then hk else k :: hk) (alSet vals k x)) := by
        have hstream : tokensMembers ((k, v) :: ms') ++ .objClose :: rest =
            .tstr k :: (v.tokens ++ (tokensMembers ms' ++ .objClose :: rest)) := by
          rw [tokensMembers_cons]
          simp
        rw [hstream]
        simp only [decodeOrderedMap, heqV, hkeys1]
        cases st <;> rfl
      have hfoldkeys : ((((k, v) :: ms').map Prod.fst).foldl stepKey keys) =
          ((ms'.map Prod.fst).foldl stepKey (stepKey keys k)) := by
        simp
      cases st with
      | none =>
          obtain ⟨V, heqM, hfst, hunt, hpres, hcorr⟩ :=
            decodeOrderedMap_spec ms' eh f rest (stepKey keys k)
              (if hk.contains k then hk else k :: hk) vals hmb hinv1
          refine ⟨V, ?_, hfst, ?_, hpres, ?_⟩
          · rw [hrun, hfoldkeys]
            exact heqM
          · intro k2 hk2
            simp only [List.map_cons, List.mem_cons] at hk2
            push_neg at hk2
            exact hunt k2 hk2.2
          · intro hGL k3 u hlv
            have hGL2 : ∀ (k4 : String) (u2 : JValue), lastVal ms' k4 = some u2 →
                ∃ d, alGet vals k4 = some d ∧ Good eh d u2 := by
              intro k4 u2 h4
              exact hGL k4 u2 (lastVal_cons_of_some k v ms' k4 u2 h4)
            cases h2 : lastVal ms' k3 with
            | some u2 =>
                have hsame : lastVal ((k, v) :: ms') k3 = some u2 :=
                  lastVal_cons_of_some k v ms' k3 u2 h2
                rw [hlv] at hsame
                injection hsame with hu
                rw [hu]
                exact hcorr hGL2 k3 u2 h2
            | none =>
                have hif := lastVal_cons_of_none k v ms' k3 h2
                rw [hif] at hlv
                by_cases hkk : k = k3
                · subst hkk
                  rw [if_pos rfl] at hlv
                  injection hlv with hu
                  subst hu
                  have hknm : k ∉ ms'.map Prod.fst := (lastVal_eq_none_iff ms' k).mp h2
                  rw [hunt k hknm]
                  obtain ⟨d, hd, hgood⟩ := hGL k v (by rw [hif, if_pos rfl])
                  have hres := hcorrV d hd hgood
                  simp only [Option.getD_none] at hres
                  rw [hd, hres]
                · rw [if_neg hkk] at hlv
                  exact absurd hlv (by simp)
      | some x =>
          have hcur : (alGet vals k).isSome = true := hsome rfl
          obtain ⟨d0, hd0⟩ := Option.isSome_iff_exists.mp hcur
          have hkmem : k ∈ vals.map Prod.fst := by
            by_contra hc
            rw [← alGet_eq_none_iff] at hc
            rw [hc] at hd0
            cases hd0
          have hfst1 : (alSet vals k x).map Prod.fst = vals.map Prod.fst := by
            rw [alSet_map_fst, if_pos hkmem]
          obtain ⟨V, heqM, hfst, hunt, hpres, hcorr⟩ :=
            decodeOrderedMap_spec ms' eh f rest (stepKey keys k)
              (if hk.contains k then hk else k :: hk) (alSet vals k x) hmb hinv1
          refine ⟨V, ?_, by rw [hfst, hfst1], ?_, ?_, ?_⟩
          · rw [hrun, hfoldkeys]
            exact heqM
          · intro k2 hk2
            simp only [List.map_cons, List.mem_cons] at hk2
            push_neg at hk2
            rw [hunt k2 hk2.2]
            exact alGet_alSet_ne vals k k2 x hk2.1
          · intro k2 v2 d hd hg
            by_cases hkk : k2 = k
            · subst hkk
              have hdd0 : d = d0 := by
                rw [hd] at hd0
                injection hd0
              subst hdd0
              have hx : Good eh x v2 := by
                have hh := hpresV v2 d hd hg
                simpa using hh
              exact hpres k2 v2 x (alGet_alSet_self vals k2 x) hx
            · exact hpres k2 v2 d (by rw [alGet_alSet_ne vals k k2 x hkk]; exact hd) hg
          · intro hGL k3 u hlv
            have hGL2 : ∀ (k4 : String) (u2 : JValue), lastVal ms' k4 = some u2 →
                ∃ d, alGet (alSet vals k x) k4 = some d ∧ Good eh d u2 := by
              intro k4 u2 h4
              by_cases hkk : k4 = k
              · subst hkk
                obtain ⟨d, hd, hgood⟩ := hGL k4 u2 (lastVal_cons_of_some k4 v ms' k4 u2 h4)
                have hdd0 : d = d0 := by
                  rw [hd] at hd0
                  injection hd0
                subst hdd0
                refine ⟨x, alGet_alSet_self vals k4 x, ?_⟩
                have hh := hpresV u2 d hd hgood
                simpa using hh
              · obtain ⟨d, hd, hgood⟩ := hGL k4 u2 (lastVal_cons_of_some k v ms' k4 u2 h4)
                exact ⟨d, by rw [alGet_alSet_ne vals k k4 x hkk]; exact hd, hgood⟩
            cases h2 : lastVal ms' k3 with
            | some u2 =>
                have hsame : lastVal ((k, v) :: ms') k3 = some u2 :=
                  lastVal_cons_of_some k v ms' k3 u2 h2
                rw [hlv] at hsame
                injection hsame with hu
                rw [hu]
                exact hcorr hGL2 k3 u2 h2
            | none =>
                have hif := lastVal_cons_of_none k v ms' k3 h2
                rw [hif] at hlv
                by_cases hkk : k = k3
                · subst hkk
                  rw [if_pos rfl] at hlv
                  injection hlv with hu
                  subst hu
                  have hknm : k ∉ ms'.map Prod.fst := (lastVal_eq_none_iff ms' k).mp h2
                  rw [hunt k hknm]
                  obtain ⟨d, hd, hgood⟩ := hGL k v (by rw [hif, if_pos rfl])
                  have hdd0 : d = d0 := by
                    rw [hd] at hd0
                    injection hd0
                  subst hdd0
                  have hres := hcorrV d hd hgood
                  simp only [Option.getD_some] at hres
                  rw [alGet_alSet_self vals k x, hres]
                · rw [if_neg hkk] at hlv
                  exact absurd hlv (by simp)

theorem decodeSlice_spec : ∀ (items : List JValue) (eh : Bool) (fuel : Nat)
    (rest : List Token) (index : Nat) (s : List DVal),
    (tokensList items).length + 2 ≤ fuel →
    ∃ s2, decodeSlice eh fuel (tokensList items ++ .arrClose :: rest) index s =
        some (s2, rest) ∧
      s2.length = s.length ∧
      (∀ j, j < index → s2[j]? = s[j]?) ∧
      (∀ i, items.length ≤ i → s2[index + i]? = s[index + i]?) ∧
      (∀ (i : Nat) (v2 : JValue) (d : DVal), s[index + i]? = some d → Good eh d v2 →
        i < items.length → ∃ d2, s2[index + i]? = some d2 ∧ Good eh d2 v2) ∧
      (∀ (i : Nat) (hi : i < items.length) (d : DVal), s[index + i]? = some d →
        Good eh d (items.get ⟨i, hi⟩) →
        s2[index + i]? = some (orderize eh (items.get ⟨i, hi⟩)))
  | [], eh, fuel, rest, index, s, hfuel => by
      obtain ⟨f, rfl⟩ : ∃ f, fuel = f + 1 := ⟨fuel - 1, by omega⟩
      refine ⟨s, ?_, rfl, fun j _ => rfl, fun i _ => rfl, ?_, ?_⟩
      · simp [tokensList, decodeSlice]
      · intro i v2 d hd hg hi
        simp at hi
      · intro i hi d hd hg
        simp at hi
  | v :: items', eh, fuel, rest, index, s, hfuel => by
      obtain ⟨f, rfl⟩ : ∃ f, fuel = f + 1 := ⟨fuel - 1, by omega⟩
      have hlen : (tokensList (v :: items')).length =
          v.tokens.length + (tokensList items').length := by
        simp [tokensList]
      have hvpos := tokens_length_pos v
      have hvb : v.tokens.length + 1 ≤ f := by omega
      have hb2 : (tokensList items').length + 2 ≤ f := by omega
      obtain ⟨st, heqV, hsome, hpresV, hcorrV⟩ :=
        decodeValue_spec v eh f (tokensList items' ++ .arrClose :: rest) s[index]? hvb
      obtain ⟨t, ts, hts⟩ : ∃ t ts, v.tokens = t :: ts := by
        cases htv : v.tokens with
        | nil =>
            rw [htv] at hvpos
            simp at hvpos
        | cons t ts => exact ⟨t, ts, rfl⟩
      have htne : t ≠ .arrClose := by
        have hh := tokens_head_not_close v
        rw [hts] at hh
        exact (hh t (by simp)).1
      have hstream2 : v.tokens ++ (tokensList items' ++ .arrClose :: rest) =
          t :: (ts ++ (tokensList items' ++ .arrClose :: rest)) := by
        rw [hts]
        simp
      have heqV2 : decodeValue eh f (t :: (ts ++ (tokensList items' ++ .arrClose :: rest)))
          s[index]? = some (st, tokensList items' ++ .arrClose :: rest) := by
        rw [← hstream2]
        exact heqV
      have hrun : decodeSlice eh (f + 1) (tokensList (v :: items') ++ .arrClose :: rest)
            index s =
          (match st with
           | none => decodeSlice eh f (tokensList items' ++ .arrClose :: rest) (index + 1) s
           | some x => decodeSlice eh f (tokensList items' ++ .arrClose :: rest) (index + 1)
              (s.set index x)) := by
        have hstream : tokensList (v :: items') ++ .arrClose :: rest =
            t :: (ts ++ (tokensList items' ++ .arrClose :: rest)) := by
          rw [tokensList_cons, ← hstream2]
          simp
        rw [hstream,
          decodeSlice_step eh f t (ts ++ (tokensList items' ++ .arrClose :: rest)) index s htne]
        simp only [heqV2]
        cases st <;> rfl
      cases st with
      | none =>
          obtain ⟨s2, heqS, hlen2, hlt, hge, hpres, hcorr⟩ :=
            decodeSlice_spec items' eh f rest (index + 1) s hb2
          refine ⟨s2, by rw [hrun]; exact heqS, hlen2, fun j hj => hlt j (by omega), ?_, ?_, ?_⟩
          · intro i hi
            simp only [List.length_cons] at hi
            have hh := hge (i - 1) (by omega)
            rwa [show index + 1 + (i - 1) = index + i by omega] at hh
          · intro i v2 d hd hg hi
            match i with
            | 0 =>
                refine ⟨d, ?_, hg⟩
                rw [show index + 0 = index by omega] at hd ⊢
                rw [hlt index (by omega)]
                exact hd
            | i2 + 1 =>
                have hh := hpres i2 v2 d (by rwa [show index + 1 + i2 = index + (i2 + 1) by omega])
                  hg (by simpa using hi)
                rwa [show index + 1 + i2 = index + (i2 + 1) by omega] at hh
          · intro i hi d hd hg
            match i with
            | 0 =>
                have hgetD := hcorrV d (by rwa [show index + 0 = index by omega] at hd) (by
                  simpa using hg)
                simp only [Option.getD_none] at hgetD
                rw [show index + 0 = index by omega] at hd ⊢
                rw [hlt index (by omega), hd, hgetD]
                simp
            | i2 + 1 =>
                have hi2 : i2 < items'.length := by simpa using hi
                have hh := hcorr i2 hi2 d
                  (by rwa [show index + 1 + i2 = index + (i2 + 1) by omega]) (by simpa using hg)
                rw [show index + 1 + i2 = index + (i2 + 1) by omega] at hh
                rw [hh]
                simp
      | some x =>
          have hcur : (s[index]?).isSome = true := hsome rfl
          obtain ⟨d0, hd0⟩ := Option.isSome_iff_exists.mp hcur
          have hidx : index < s.length := (List.getElem?_eq_some.mp hd0).1
          obtain ⟨s2, heqS, hlen2, hlt, hge, hpres, hcorr⟩ :=
            decodeSlice_spec items' eh f rest (index + 1) (s.set index x) hb2
          refine ⟨s2, by rw [hrun]; exact heqS, by rw [hlen2, List.length_set], ?_, ?_, ?_, ?_⟩
          · intro j hj
            rw [hlt j (by omega), List.getElem?_set_ne (by omega)]
          · intro i hi
            simp only [List.length_cons] at hi
            have hh := hge (i - 1) (by omega)
            rw [show index + 1 + (i - 1) = index + i by omega] at hh
            rw [hh, List.getElem?_set_ne (by omega)]
          · intro i v2 d hd hg hi
            match i with
            | 0 =>
                rw [show index + 0 = index by omega] at hd
                have hdd0 : d = d0 := by
                  rw [hd] at hd0
                  injection hd0
                subst hdd0
                have hx : Good eh x v2 := by
                  have hh := hpresV v2 d hd hg
                  simpa using hh
                refine ⟨x, ?_, hx⟩
                rw [show index + 0 = index by omega, hlt index (by omega),
                  List.getElem?_set_self hidx]
            | i2 + 1 =>
                have hset : (s.set index x)[index + 1 + i2]? = s[index + (i2 + 1)]? := by
                  rw [List.getElem?_set_ne (by omega),
                    show index + 1 + i2 = index + (i2 + 1) by omega]
                have hh := hpres i2 v2 d (by rw [hset]; exact hd) hg (by simpa using hi)
                rwa [show index + 1 + i2 = index + (i2 + 1) by omega] at hh
          · intro i hi d hd hg
            match i with
            | 0 =>
                rw [show index + 0 = index by omega] at hd
                have hdd0 : d = d0 := by
                  rw [hd] at hd0
                  injection hd0
                subst hdd0
                have hgetD := hcorrV d hd (by simpa using hg)
                simp only [Option.getD_some] at hgetD
                rw [show index + 0 = index by omega, hlt index (by omega),
                  List.getElem?_set_self hidx, hgetD]
                simp
            | i2 + 1 =>
                have hi2 : i2 < items'.length := by simpa using hi
                have hset : (s.set index x)[index + 1 + i2]? = s[index + (i2 + 1)]? := by
                  rw [List.getElem?_set_ne (by omega),
                    show index + 1 + i2 = index + (i2 + 1) by omega]
                have hh := hcorr i2 hi2 d (by rw [hset]; exact hd) (by simpa using hg)
                rw [show index + 1 + i2 = index + (i2 + 1) by omega] at hh
                rw [hh]
                simp

end

/-! ### The prescan theorem: CheckDuplicate accepts exactly the
duplicate-free documents, and otherwise reports a genuinely repeated
key -/

mutual

theorem checkDuplicate_spec : ∀ (v : JValue) (fuel : Nat) (rest : List Token),
    v.tokens.length + 1 ≤ fuel →
    (v.noDup = true → checkDuplicate fuel (v.tokens ++ rest) = .ok rest) ∧
    (v.noDup = false → ∃ k, checkDuplicate fuel (v.tokens ++ rest) = .error (.dupKey k) ∧
      v.dupKeyIn k = true)
  | .null, fuel, rest, hfuel => by
      obtain ⟨f, rfl⟩ : ∃ f, fuel = f + 1 := ⟨fuel - 1, by omega⟩
      exact ⟨fun _ => by simp [JValue.tokens, checkDuplicate],
        fun h => by simp [JValue.noDup] at h⟩
  | .bool b, fuel, rest, hfuel => by
      obtain ⟨f, rfl⟩ : ∃ f, fuel = f + 1 := ⟨fuel - 1, by omega⟩
      exact ⟨fun _ => by simp [JValue.tokens, checkDuplicate],
        fun h => by simp [JValue.noDup] at h⟩
  | .num n, fuel, rest, hfuel => by
      obtain ⟨f, rfl⟩ : ∃ f, fuel = f + 1 := ⟨fuel - 1, by omega⟩
      exact ⟨fun _ => by simp [JValue.tokens, checkDuplicate],
        fun h => by simp [JValue.noDup] at h⟩
  | .str s, fuel, rest, hfuel => by
      obtain ⟨f, rfl⟩ : ∃ f, fuel = f + 1 := ⟨fuel - 1, by omega⟩
      exact ⟨fun _ => by simp [JValue.tokens, checkDuplicate],
        fun h => by simp [JValue.noDup] at h⟩
  | .arr items, fuel, rest, hfuel => by
      obtain ⟨f, rfl⟩ : ∃ f, fuel = f + 1 := ⟨fuel - 1, by omega⟩
      have hlen : (JValue.tokens (.arr items)).length = (tokensList items).length + 2 := by
        simp [JValue.tokens]
      have hb : (tokensList items).length + 2 ≤ f := by omega
      have hstream : JValue.tokens (.arr items) ++ rest =
          .arrOpen :: (tokensList items ++ .arrClose :: rest) := by
        simp [JValue.tokens]
      obtain ⟨hok, herr⟩ := checkDupArr_spec items f rest hb
      constructor
      · intro hnd
        rw [hstream]
        simp only [checkDuplicate]
        exact hok (by simpa [JValue.noDup] using hnd)
      · intro hnd
        obtain ⟨k, hk, hdup⟩ := herr (by simpa [JValue.noDup] using hnd)
        refine ⟨k, ?_, by simpa [JValue.dupKeyIn] using hdup⟩
        rw [hstream]
        simp only [checkDuplicate]
        exact hk
  | .obj ms, fuel, rest, hfuel => by
      obtain ⟨f, rfl⟩ : ∃ f, fuel = f + 1 := ⟨fuel - 1, by omega⟩
      have hlen : (JValue.tokens (.obj ms)).length = (tokensMembers ms).length + 2 := by
        simp [JValue.tokens]
      have hb : (tokensMembers ms).length + 1 ≤ f := by omega
      have hstream : JValue.tokens (.obj ms) ++ rest =
          .objOpen :: (tokensMembers ms ++ .objClose :: rest) := by
        simp [JValue.tokens]
      obtain ⟨hok, herr⟩ := checkDupObj_spec ms [] f rest hb
      constructor
      · intro hnd
        rw [hstream]
        simp only [checkDuplicate]
        exact hok (by simpa [JValue.noDup] using hnd)
      · intro hnd
        obtain ⟨k, hk, hdup⟩ := herr (by simpa [JValue.noDup] using hnd)
        refine ⟨k, ?_, ?_⟩
        · rw [hstream]
          simp only [checkDuplicate]
          exact hk
        · rcases hdup with ⟨hmem, _⟩ | hcount | hmem
          · simp at hmem
          · simp only [JValue.dupKeyIn, Bool.or_eq_true, decide_eq_true_eq]
            exact Or.inl hcount
          · simp only [JValue.dupKeyIn, Bool.or_eq_true]
            exact Or.inr hmem

theorem checkDupObj_spec : ∀ (ms : List (String × JValue)) (seen : List String) (fuel : Nat)
    (rest : List Token), (tokensMembers ms).length + 1 ≤ fuel →
    (noDupScan seen ms = true →
      checkDupObj fuel (tokensMembers ms ++ .objClose :: rest) seen = .ok rest) ∧
    (noDupScan seen ms = false → ∃ k,
      checkDupObj fuel (tokensMembers ms ++ .objClose :: rest) seen = .error (.dupKey k) ∧
      ((k ∈ seen ∧ k ∈ ms.map Prod.fst) ∨ 2 ≤ (ms.map Prod.fst).count k ∨
        dupKeyInMembers ms k = true))
  | [], seen, fuel, rest, hfuel => by
      obtain ⟨f, rfl⟩ : ∃ f, fuel = f + 1 := ⟨fuel - 1, by omega⟩
      exact ⟨fun _ => by simp [tokensMembers, checkDupObj],
        fun h => by simp [noDupScan] at h⟩
  | (k, v) :: ms', seen, fuel, rest, hfuel => by
      obtain ⟨f, rfl⟩ : ∃ f, fuel = f + 1 := ⟨fuel - 1, by omega⟩
      have hlen : (tokensMembers ((k, v) :: ms')).length =
          v.tokens.length + (tokensMembers ms').length + 1 := by
        simp [tokensMembers]
      have hvb : v.tokens.length + 1 ≤ f := by omega
      have hmb : (tokensMembers ms').length + 1 ≤ f := by omega
      have hstream : tokensMembers ((k, v) :: ms') ++ .objClose :: rest =
          .tstr k :: (v.tokens ++ (tokensMembers ms' ++ .objClose :: rest)) := by
        rw [tokensMembers_cons]
        simp
      by_cases hseen : seen.contains k
      · have hks : k ∈ seen := by simpa using hseen
        constructor
        · intro h
          simp [noDupScan, hks] at h
        · intro _
          refine ⟨k, ?_, Or.inl ⟨hks, by simp⟩⟩
          rw [hstream]
          simp only [checkDupObj]
          rw [if_pos hseen]
      · have hksn : k ∉ seen := by simpa using hseen
        obtain ⟨hvok, hverr⟩ :=
          checkDuplicate_spec v f (tokensMembers ms' ++ .objClose :: rest) hvb
        by_cases hvnd : v.noDup
        · obtain ⟨hrok, hrerr⟩ := checkDupObj_spec ms' (k :: seen) f rest hmb
          by_cases hscan : noDupScan (k :: seen) ms'
          · constructor
            · intro _
              rw [hstream]
              simp only [checkDupObj]
              rw [if_neg (by simpa using hseen)]
              simp only [hvok hvnd]
              exact hrok hscan
            · intro h
              simp [noDupScan, hksn, hvnd, hscan] at h
          · constructor
            · intro h
              simp [noDupScan, hksn, hvnd, hscan] at h
            · intro _
              obtain ⟨k2, hk2, hw⟩ := hrerr (by simpa using hscan)
              refine ⟨k2, ?_, ?_⟩
              · rw [hstream]
                simp only [checkDupObj]
                rw [if_neg (by simpa using hseen)]
                simp only [hvok hvnd]
                exact hk2
              · rcases hw with ⟨hmem, hmem2⟩ | hcount | hmem
                · rcases List.mem_cons.mp hmem with heq | hmem3
                  · refine Or.inr (Or.inl ?_)
                    have hpos : 0 < (ms'.map Prod.fst).count k2 := List.count_pos_iff.mpr hmem2
                    have hc : (((k, v) :: ms').map Prod.fst).count k2 =
                        (ms'.map Prod.fst).count k2 + 1 := by
                      simp [List.count_cons, heq]
                    omega
                  · exact Or.inl ⟨hmem3, by simp [hmem2]⟩
                · refine Or.inr (Or.inl ?_)
                  have hc : (ms'.map Prod.fst).count k2 ≤
                      (((k, v) :: ms').map Prod.fst).count k2 := by
                    simp only [List.map_cons]
                    rw [List.count_cons]
                    split <;> omega
                  omega
                · refine Or.inr (Or.inr ?_)
                  simp only [dupKeyInMembers, Bool.or_eq_true]
                  exact Or.inr hmem
        · constructor
          · intro h
            simp [noDupScan, hksn, hvnd] at h
          · intro _
            obtain ⟨k2, hk2, hdup⟩ := hverr (by simpa using hvnd)
            refine ⟨k2, ?_, Or.inr (Or.inr (by
              simp only [dupKeyInMembers, Bool.or_eq_true]
              exact Or.inl hdup))⟩
            rw [hstream]
            simp only [checkDupObj]
            rw [if_neg (by simpa using hseen)]
            simp only [hk2]

theorem checkDupArr_spec : ∀ (items : List JValue) (fuel : Nat) (rest : List Token),
    (tokensList items).length + 2 ≤ fuel →
    (noDupList items = true →
      checkDupArr fuel (tokensList items ++ .arrClose :: rest) = .ok rest) ∧
    (noDupList items = false → ∃ k,
      checkDupArr fuel (tokensList items ++ .arrClose :: rest) = .error (.dupKey k) ∧
      dupKeyInList items k = true)
  | [], fuel, rest, hfuel => by
      obtain ⟨f, rfl⟩ : ∃ f, fuel = f + 1 := ⟨fuel - 1, by omega⟩
      exact ⟨fun _ => by simp [tokensList, checkDupArr],
        fun h => by simp [noDupList] at h⟩
  | v :: items', fuel, rest, hfuel => by
      obtain ⟨f, rfl⟩ : ∃ f, fuel = f + 1 := ⟨fuel - 1, by omega⟩
      have hlen : (tokensList (v :: items')).length =
          v.tokens.length + (tokensList items').length := by
        simp [tokensList]
      have hvpos := tokens_length_pos v
      have hvb : v.tokens.length + 1 ≤ f := by omega
      have hib : (tokensList items').length + 2 ≤ f := by omega
      obtain ⟨t, ts, hts⟩ : ∃ t ts, v.tokens = t :: ts := by
        cases htv : v.tokens with
        | nil =>
            rw [htv] at hvpos
            simp at hvpos
        | cons t ts => exact ⟨t, ts, rfl⟩
      have htne : t ≠ .arrClose := by
        have hh := tokens_head_not_close v
        rw [hts] at hh
        exact (hh t (by simp)).1
      have hstream : tokensList (v :: items') ++ .arrClose :: rest =
          t :: (ts ++ (tokensList items' ++ .arrClose :: rest)) := by
        rw [tokensList_cons, hts]
        simp
      have hstream2 : v.tokens ++ (tokensList items' ++ .arrClose :: rest) =
          t :: (ts ++ (tokensList items' ++ .arrClose :: rest)) := by
        rw [hts]
        simp
      obtain ⟨hvok, hverr⟩ :=
        checkDuplicate_spec v f (tokensList items' ++ .arrClose :: rest) hvb
      obtain ⟨hrok, hrerr⟩ := checkDupArr_spec items' f rest hib
      have hstep := checkDupArr_step f t (ts ++ (tokensList items' ++ .arrClose :: rest)) htne
      by_cases hvnd : v.noDup
      · by_cases hind : noDupList items'
        · constructor
          · intro _
            rw [hstream, hstep, ← hstream2, hvok hvnd]
            exact hrok hind
          · intro h
            simp [noDupList, hvnd, hind] at h
        · constructor
          · intro h
            simp [noDupList, hvnd, hind] at h
          · intro _
            obtain ⟨k2, hk2, hdup⟩ := hrerr (by simpa using hind)
            refine ⟨k2, ?_, by
              simp only [dupKeyInList, Bool.or_eq_true]
              exact Or.inr hdup⟩
            rw [hstream, hstep, ← hstream2, hvok hvnd]
            exact hk2
      · constructor
        · intro h
          simp [noDupList, hvnd] at h
        · intro _
          obtain ⟨k2, hk2, hdup⟩ := hverr (by simpa using hvnd)
          refine ⟨k2, ?_, by
            simp only [dupKeyInList, Bool.or_eq_true]
            exact Or.inl hdup⟩
          rw [hstream, hstep, ← hstream2, hk2]

end

/-! ### Claim C10: newline placement in MarshalJSON output -/

theorem hexDigit_ne_nl (n : Nat) (h : n < 16) : hexDigit n ≠ '\n' := by
  interval_cases n <;> decide

theorem quoteChar_no_nl (eh : Bool) (c : Char) : '\n' ∉ quoteChar eh c := by
  unfold quoteChar
  by_cases h1 : c = '"'
  · simp [h1]
  by_cases h2 : c = '\\'
  · simp [h1, h2]
  by_cases h3 : c = '\n'
  · simp [h1, h2, h3]
  by_cases h4 : c = '\r'
  · simp [h1, h2, h3, h4]
  by_cases h5 : c = '\t'
  · simp [h1, h2, h3, h4, h5]
  simp only [if_neg h1, if_neg h2, if_neg h3, if_neg h4, if_neg h5]
  by_cases h6 : c.toNat < 32 ∨ (eh = true ∧ (c = '<' ∨ c = '>' ∨ c = '&'))
  · rw [if_pos h6]
    rcases h6 with h6 | ⟨_, hc⟩
    · have hd1 := hexDigit_ne_nl (c.toNat / 16) (by omega)
      have hd2 := hexDigit_ne_nl (c.toNat % 16) (by omega)
      intro hmem
      rcases List.mem_cons.mp hmem with h | hmem
      · exact absurd h.symm (by decide)
      rcases List.mem_cons.mp hmem with h | hmem
      · exact absurd h.symm (by decide)
      rcases List.mem_cons.mp hmem with h | hmem
      · exact absurd h.symm (by decide)
      rcases List.mem_cons.mp hmem with h | hmem
      · exact absurd h.symm (by decide)
      rcases List.mem_cons.mp hmem with h | hmem
      · exact hd1 h.symm
      rcases List.mem_cons.mp hmem with h | hmem
      · exact hd2 h.symm
      · exact absurd hmem (by decide)
    · rcases hc with rfl | rfl | rfl <;> decide
  · rw [if_neg h6]
    by_cases h7 : c.toNat = 8232 ∨ c.toNat = 8233
    · rw [if_pos h7]
      have hd2 := hexDigit_ne_nl (c.toNat % 16) (by omega)
      intro hmem
      rcases List.mem_cons.mp hmem with h | hmem
      · exact absurd h.symm (by decide)
      rcases List.mem_cons.mp hmem with h | hmem
      · exact absurd h.symm (by decide)
      rcases List.mem_cons.mp hmem with h | hmem
      · exact absurd h.symm (by decide)
      rcases List.mem_cons.mp hmem with h | hmem
      · exact absurd h.symm (by decide)
      rcases List.mem_cons.mp hmem with h | hmem
      · exact absurd h.symm (by decide)
      rcases List.mem_cons.mp hmem with h | hmem
      · exact hd2 h.symm
      · exact absurd hmem (by decide)
    · rw [if_neg h7]
      intro hmem
      rcases List.mem_cons.mp hmem with h | hmem
      · exact h3 h.symm
      · exact absurd hmem (by decide)

theorem quote_no_nl (eh : Bool) (s : String) : '\n' ∉ quote eh s := by
  intro hmem
  rcases List.mem_cons.mp hmem with h | hmem2
  · exact absurd h (by decide)
  rcases List.mem_append.mp hmem2 with h3 | h4
  · obtain ⟨a, _, ha⟩ := List.mem_flatMap.mp h3
    exact quoteChar_no_nl eh a ha
  · exact absurd (List.mem_singleton.mp h4) (by decide)

theorem mem_joinComma_of_mem {c : Char} {x : List Char} (rest : List (List Char))
    (h : c ∈ x) : c ∈ joinComma (x :: rest) := by
  cases rest with
  | nil => simpa [joinComma] using h
  | cons y ys => simp [joinComma, h]

theorem joinComma_no_nl : ∀ {l : List (List Char)}, (∀ x ∈ l, '\n' ∉ x) →
    '\n' ∉ joinComma l
  | [], _ => by simp [joinComma]
  | [x], h => by simpa [joinComma] using h x (by simp)
  | x :: y :: ys, h => by
      simp only [joinComma, List.mem_append, List.mem_cons]
      rintro (hx | hc | hj)
      · exact h x (by simp) hx
      · exact absurd hc (by decide)
      · exact joinComma_no_nl (fun z hz => h z (List.mem_cons_of_mem x hz)) hj

theorem digitChar_ne_nl (d : Nat) (h : d < 10) : Char.ofNat (48 + d) ≠ '\n' := by
  interval_cases d <;> decide

theorem natCharsAux_no_nl (n : Nat) : ∀ (acc : List Char), '\n' ∉ acc →
    '\n' ∉ natCharsAux n acc := by
  induction n using Nat.strong_induction_on with
  | _ n ih =>
    intro acc hacc
    match n with
    | 0 => simpa [natCharsAux] using hacc
    | m + 1 =>
        have hstep : natCharsAux (m + 1) acc =
            natCharsAux ((m + 1) / 10) (Char.ofNat (48 + (m + 1) % 10) :: acc) := by
          simp [natCharsAux]
        rw [hstep]
        apply ih ((m + 1) / 10) (by omega)
        simp only [List.mem_cons]
        rintro (hc | hc)
        · exact digitChar_ne_nl ((m + 1) % 10) (Nat.mod_lt _ (by omega)) hc.symm
        · exact hacc hc

theorem natChars_no_nl (n : Nat) : '\n' ∉ natChars n := by
  unfold natChars
  by_cases h : n = 0
  · simp [h]
  · simpa [h] using natCharsAux_no_nl n [] (by simp)

theorem intChars_no_nl (n : Int) : '\n' ∉ intChars n := by
  unfold intChars
  by_cases h : n < 0
  · simp only [if_pos h, List.mem_cons]
    rintro (hc | hc)
    · exact absurd hc (by decide)
    · exact natChars_no_nl _ hc
  · simpa [h] using natChars_no_nl _

theorem mem_insertSorted (p x : String × List Char) :
    ∀ (l : List (String × List Char)), x ∈ insertSorted p l ↔ x = p ∨ x ∈ l
  | [] => by simp [insertSorted]
  | q :: rest => by
      by_cases h : p.1 < q.1
      · simp [insertSorted, h]
      · simp only [insertSorted, if_neg h, List.mem_cons, mem_insertSorted p x rest]
        tauto

theorem mem_sortPairs (x : String × List Char) :
    ∀ (l : List (String × List Char)), x ∈ sortPairs l → x ∈ l
  | [], h => by simp [sortPairs] at h
  | p :: rest, h => by
      rcases (mem_insertSorted p x (sortPairs rest)).mp (by simpa [sortPairs] using h) with
        rfl | hm
      · exact List.mem_cons_self _ _
      · exact List.mem_cons_of_mem _ (mem_sortPairs x rest hm)

theorem alGetSer_mem : ∀ (l : List (String × List Char)) (k : String) (cs : List Char),
    alGetSer l k = some cs → ∃ p ∈ l, p.2 = cs
  | [], k, cs, h => by simp [alGetSer] at h
  | (k1, cs1) :: rest, k, cs, h => by
      by_cases h1 : k1 = k
      · have hcs : cs1 = cs := by simpa [alGetSer, h1] using h
        exact ⟨(k1, cs1), by simp, hcs⟩
      · obtain ⟨p, hp, hcs⟩ := alGetSer_mem rest k cs (by simpa [alGetSer, h1] using h)
        exact ⟨p, List.mem_cons_of_mem _ hp, hcs⟩

mutual

theorem serD_no_nl : ∀ (eh : Bool) (d : DVal), '\n' ∉ serD eh d
  | eh, .null => by simp [serD]
  | eh, .bool true => by simp [serD]
  | eh, .bool false => by simp [serD]
  | eh, .num n => intChars_no_nl n
  | eh, .str s => quote_no_nl eh s
  | eh, .arr items => by
      intro hmem
      simp only [serD] at hmem
      rcases List.mem_cons.mp hmem with h | hmem2
      · exact absurd h (by decide)
      rcases List.mem_append.mp hmem2 with h3 | h4
      · exact joinComma_no_nl (serDList_no_nl eh items) h3
      · exact absurd (List.mem_singleton.mp h4) (by decide)
  | eh, .gomap g => by
      intro hmem
      simp only [serD] at hmem
      rcases List.mem_cons.mp hmem with h | hmem2
      · exact absurd h (by decide)
      rcases List.mem_append.mp hmem2 with h3 | h4
      · refine joinComma_no_nl ?_ h3
        intro x hx hnl
        obtain ⟨p, hp, rfl⟩ := List.mem_map.mp hx
        have hmemp := mem_sortPairs p _ hp
        rcases List.mem_append.mp hnl with hq | hrest
        · exact quote_no_nl eh p.1 hq
        rcases List.mem_cons.mp hrest with hc | hv
        · exact absurd hc (by decide)
        · exact serEntries_no_nl eh g p hmemp hv
      · exact absurd (List.mem_singleton.mp h4) (by decide)
  | eh, .omap eh2 ks g => by
      intro hmem
      simp only [serD] at hmem
      rcases List.mem_cons.mp hmem with h | hmem2
      · exact absurd h (by decide)
      rcases List.mem_append.mp hmem2 with h3 | h4
      · refine joinComma_no_nl ?_ h3
        intro x hx hnl
        obtain ⟨k, _, rfl⟩ := List.mem_map.mp hx
        rcases List.mem_append.mp hnl with hq | hrest
        · exact quote_no_nl eh2 k hq
        rcases List.mem_cons.mp hrest with hc | hv
        · exact absurd hc (by decide)
        · match hser : alGetSer (serEntries eh2 g) k with
          | some cs =>
              obtain ⟨p, hp, hpcs⟩ := alGetSer_mem _ k cs hser
              rw [hser] at hv
              simp only [Option.getD_some] at hv
              rw [← hpcs] at hv
              exact serEntries_no_nl eh2 g p hp hv
          | none =>
              rw [hser] at hv
              exact absurd hv (by decide)
      · exact absurd (List.mem_singleton.mp h4) (by decide)

theorem serDList_no_nl : ∀ (eh : Bool) (l : List DVal), ∀ cs ∈ serDList eh l, '\n' ∉ cs
  | eh, [] => by simp [serDList]
  | eh, d :: rest => by
      simp only [serDList, List.mem_cons]
      rintro cs (rfl | h)
      · exact serD_no_nl eh d
      · exact serDList_no_nl eh rest cs h

theorem serEntries_no_nl : ∀ (eh : Bool) (g : List (String × DVal)),
    ∀ p ∈ serEntries eh g, '\n' ∉ p.2
  | eh, [] => by simp [serEntries]
  | eh, (k, d) :: rest => by
      simp only [serEntries, List.mem_cons]
      rintro p (rfl | h)
      · exact serD_no_nl eh d
      · exact serEntries_no_nl eh rest p h

end

/-- C10: MarshalJSON output is the opening brace, then for each key in
order (comma-separated) the quoted key followed immediately by a newline,
a colon, and the encoded value followed immediately by a newline, then
the closing brace; quoted keys and encoded values themselves contain no
newline, so these are exactly the newlines of the output; the empty map
encodes to exactly the two brace characters, and no nonempty map does. -/
theorem marshal_newline_after_each (o : OMap) :
    o.marshalJSON = '{' :: joinComma (o.keys.map (fun k =>
        (quote o.escapeHTML k ++ ['\n']) ++
          ':' :: (serD o.escapeHTML ((alGet o.values k).getD .null) ++ ['\n']))) ++ ['}'] ∧
    (∀ k, '\n' ∉ quote o.escapeHTML k) ∧
    (∀ d, '\n' ∉ serD o.escapeHTML d) ∧
    (o.keys = [] → o.marshalJSON = ['{', '}']) ∧
    (o.keys ≠ [] → o.marshalJSON ≠ ['{', '}']) := by
  refine ⟨rfl, fun k => quote_no_nl _ k, fun d => serD_no_nl _ d, ?_, ?_⟩
  · intro h
    simp [OMap.marshalJSON, h, joinComma]
  · intro h heq
    match hk : o.keys with
    | [] => exact h hk
    | k :: rest =>
        have hnl : '\n' ∈ o.marshalJSON := by
          rw [OMap.marshalJSON, hk, List.map_cons]
          exact List.mem_cons_of_mem _
            (List.mem_append_left _ (mem_joinComma_of_mem _ (by simp)))
        rw [heq] at hnl
        exact absurd hnl (by decide)

/-- Witness for C10 at a concrete nonempty map. -/
theorem marshal_newline_after_each_witness :
    (OMap.new.set "a" (.num 1)).keys ≠ [] ∧
      (OMap.new.set "a" (.num 1)).marshalJSON ≠ ['{', '}'] :=
  ⟨by decide, (marshal_newline_after_each (OMap.new.set "a" (.num 1))).2.2.2.2 (by decide)⟩

/-! ### UnmarshalJSON assembled -/

/-- What UnmarshalJSON computes on an object document, whenever it is
allowed to run (permissive mode, or a duplicate-free document in strict
mode): no error, the key order is the document keys in last-occurrence
order, and the values hold the decoded last value of every document key,
with entries for other keys untouched from the merged phase-1 map. -/
theorem unmarshalJSON_obj (o : OMap) (ms : List (String × JValue))
    (hok : o.jsonLastValueWins = true ∨ JValue.noDup (.obj ms) = true) :
    ∃ V, o.unmarshalJSON (.obj ms) =
      ({ o with keys := lastWinsKeys (ms.map Prod.fst), values := V }, none) ∧
      V.map Prod.fst = (goMembers o.values ms).map Prod.fst ∧
      (∀ k, k ∉ ms.map Prod.fst → alGet V k = alGet (goMembers o.values ms) k) ∧
      (∀ k u, lastVal ms k = some u → alGet V k = some (orderize o.escapeHTML u)) := by
  obtain ⟨V, heq, hfst, hunt, hpres, hcorr⟩ :=
    decodeOrderedMap_spec ms o.escapeHTML ((tokensMembers ms).length + 2) [] [] []
      (goMembers o.values ms) (by omega) (fun _ => rfl)
  have hGL : ∀ (k3 : String) (u : JValue), lastVal ms k3 = some u →
      ∃ d, alGet (goMembers o.values ms) k3 = some d ∧ Good o.escapeHTML d u := by
    intro k3 u hlv
    exact ⟨goVal u, alGet_goMembers_of_some ms o.values k3 u hlv, good_goVal _ u⟩
  refine ⟨V, ?_, hfst, hunt, fun k u hlv => hcorr hGL k u hlv⟩
  by_cases hmode : o.jsonLastValueWins
  · simp only [OMap.unmarshalJSON, hmode, if_true, heq]
    simp [lastWinsKeys]
  · have hmf : o.jsonLastValueWins = false := by simpa using hmode
    have hnd : JValue.noDup (.obj ms) = true := by
      rcases hok with h | h
      · rw [hmf] at h
        cases h
      · exact h
    have hchk := (checkDuplicate_spec (.obj ms)
      ((JValue.tokens (.obj ms)).length + 1) [] (by omega)).1 hnd
    rw [List.append_nil] at hchk
    simp only [OMap.unmarshalJSON, hmf, Bool.false_eq_true, if_false, hchk, heq]
    simp [lastWinsKeys]

/-- UnmarshalJSON on a non-object document: the strict prescan may name a
duplicate, and otherwise the generic unmarshal reports the type error; in
both cases the destination is returned unchanged. -/
theorem unmarshal_nonobj_err (o : OMap) (v : JValue) (hv : ∀ ms, v ≠ JValue.obj ms) :
    o.unmarshalJSON v = (o, some .typeErr) ∨
      ∃ k, o.unmarshalJSON v = (o, some (.dupKey k)) := by
  by_cases hmode : o.jsonLastValueWins
  · left
    cases v with
    | obj ms => exact absurd rfl (hv ms)
    | null => simp [OMap.unmarshalJSON, hmode]
    | bool b => simp [OMap.unmarshalJSON, hmode]
    | num n => simp [OMap.unmarshalJSON, hmode]
    | str s => simp [OMap.unmarshalJSON, hmode]
    | arr items => simp [OMap.unmarshalJSON, hmode]
  · have hmf : o.jsonLastValueWins = false := by simpa using hmode
    by_cases hnd : v.noDup
    · left
      have hchk := (checkDuplicate_spec v (v.tokens.length + 1) [] (by omega)).1 hnd
      rw [List.append_nil] at hchk
      cases v with
      | obj ms => exact absurd rfl (hv ms)
      | null => simp [OMap.unmarshalJSON, hmf, hchk]
      | bool b => simp [OMap.unmarshalJSON, hmf, hchk]
      | num n => simp [OMap.unmarshalJSON, hmf, hchk]
      | str s => simp [OMap.unmarshalJSON, hmf, hchk]
      | arr items => simp [OMap.unmarshalJSON, hmf, hchk]
    · right
      obtain ⟨k, herrk, _⟩ := (checkDuplicate_spec v (v.tokens.length + 1) []
        (by omega)).2 (by simpa using hnd)
      rw [List.append_nil] at herrk
      exact ⟨k, by simp [OMap.unmarshalJSON, hmf, herrk]⟩

/-! ### Claim C1: order preservation -/

/-- C1: for every valid JSON object whose top-level keys are distinct,
UnmarshalJSON succeeds (in permissive mode, or in strict mode when no
nested object repeats a key either, as the prescan demands) and the
resulting key order is exactly the document order of the keys. -/
theorem decode_keys_in_document_order (o : OMap) (ms : List (String × JValue))
    (hnd : (ms.map Prod.fst).Nodup)
    (hok : o.jsonLastValueWins = true ∨ JValue.noDup (.obj ms) = true) :
    (o.unmarshalJSON (.obj ms)).2 = none ∧
    (o.unmarshalJSON (.obj ms)).1.keys = ms.map Prod.fst := by
  obtain ⟨V, heq, _, _, _⟩ := unmarshalJSON_obj o ms hok
  rw [heq]
  exact ⟨rfl, lastWinsKeys_of_nodup _ hnd⟩

/-- Witness for C1 on the document with keys b, a, c. -/
theorem decode_keys_in_document_order_witness :
    ((OMap.new.unmarshalJSON
        (.obj [("b", .num 2), ("a", .num 1), ("c", .num 3)])).2 = none ∧
      (OMap.new.unmarshalJSON
        (.obj [("b", .num 2), ("a", .num 1), ("c", .num 3)])).1.keys = ["b", "a", "c"]) :=
  decode_keys_in_document_order OMap.new [("b", .num 2), ("a", .num 1), ("c", .num 3)]
    (by decide) (Or.inr (by decide))

/-! ### Claim C2: duplicate keys in permissive mode -/

/-- C2 counterexample: in last-value-wins mode, decoding the object with
members a:1, b:2, a:3 stores the last value 3 for a, but a's position is
its last occurrence, giving key order [b, a] — not [a, b] as the claim's
first-position rule would require. -/
theorem dup_key_position_counterexample :
    ((({ OMap.new with jsonLastValueWins := true }).unmarshalJSON
        (.obj [("a", .num 1), ("b", .num 2), ("a", .num 3)])).1.keys = ["b", "a"] ∧
      ("b" :: "a" :: []) ≠ ("a" :: "b" :: [])) ∧
    alGet ((({ OMap.new with jsonLastValueWins := true }).unmarshalJSON
        (.obj [("a", .num 1), ("b", .num 2), ("a", .num 3)])).1.values) "a" =
      some (.num 3) :=
  ⟨⟨rfl, by decide⟩, rfl⟩

/-- C2 amended: with the duplicate policy disabled, decoding an object
that repeats a key succeeds; every key holds the decoded value of its
last occurrence, and the key order is the keys ordered by last
occurrence, so a repeated key takes the position of its last occurrence,
not its first. -/
theorem dup_key_last_value_last_position (o : OMap) (ms : List (String × JValue))
    (hmode : o.jsonLastValueWins = true) :
    (o.unmarshalJSON (.obj ms)).2 = none ∧
    (o.unmarshalJSON (.obj ms)).1.keys = lastWinsKeys (ms.map Prod.fst) ∧
    ∀ k u, lastVal ms k = some u →
      alGet (o.unmarshalJSON (.obj ms)).1.values k = some (orderize o.escapeHTML u) := by
  obtain ⟨V, heq, _, _, hcorr⟩ := unmarshalJSON_obj o ms (Or.inl hmode)
  rw [heq]
  exact ⟨rfl, rfl, hcorr⟩

/-- Witness for the amended C2 on the document a:1, b:2, a:3. -/
theorem dup_key_last_value_last_position_witness :
    ((({ OMap.new with jsonLastValueWins := true }).unmarshalJSON
        (.obj [("a", .num 1), ("b", .num 2), ("a", .num 3)])).2 = none ∧
      (({ OMap.new with jsonLastValueWins := true }).unmarshalJSON
        (.obj [("a", .num 1), ("b", .num 2), ("a", .num 3)])).1.keys =
        lastWinsKeys ["a", "b", "a"] ∧
      ∀ k u, lastVal [("a", .num 1), ("b", .num 2), ("a", .num 3)] k = some u →
        alGet (({ OMap.new with jsonLastValueWins := true }).unmarshalJSON
          (.obj [("a", .num 1), ("b", .num 2), ("a", .num 3)])).1.values k =
          some (orderize true u)) :=
  dup_key_last_value_last_position { OMap.new with jsonLastValueWins := true }
    [("a", .num 1), ("b", .num 2), ("a", .num 3)] rfl

/-! ### Claim C6: strict mode rejects duplicates -/

/-- C6: with the strict policy, decoding a document that repeats a key in
some object at any depth fails with a duplicate-key error naming a key
that is genuinely repeated there, and on the document with members a:1,
a:2 the error names a. -/
theorem strict_duplicate_error (o : OMap) (v : JValue)
    (hmode : o.jsonLastValueWins = false) (hdup : v.noDup = false) :
    (∃ k, o.unmarshalJSON v = (o, some (.dupKey k)) ∧ v.dupKeyIn k = true) ∧
    OMap.new.unmarshalJSON (.obj [("a", .num 1), ("a", .num 2)]) =
      (OMap.new, some (.dupKey "a")) := by
  constructor
  · obtain ⟨k, herrk, hwit⟩ := (checkDuplicate_spec v (v.tokens.length + 1) []
      (by omega)).2 hdup
    rw [List.append_nil] at herrk
    exact ⟨k, by simp [OMap.unmarshalJSON, hmode, herrk], hwit⟩
  · rfl

/-- Witness for C6 at a concrete nested duplicate. -/
theorem strict_duplicate_error_witness :
    (∃ k, OMap.new.unmarshalJSON (.obj [("o", .obj [("d", .num 1), ("d", .num 2)])]) =
        (OMap.new, some (.dupKey k)) ∧
      (JValue.obj [("o", .obj [("d", .num 1), ("d", .num 2)])]).dupKeyIn k = true) ∧
    OMap.new.unmarshalJSON (.obj [("a", .num 1), ("a", .num 2)]) =
      (OMap.new, some (.dupKey "a")) :=
  strict_duplicate_error OMap.new (.obj [("o", .obj [("d", .num 1), ("d", .num 2)])])
    rfl (by decide)

/-! ### Claim C7: atomicity on failure -/

/-- C7: whenever UnmarshalJSON returns an error — the strict prescan's
duplicate-key error, or the type error of a non-object document — the
destination map is returned exactly as it was: no partial decode is left
behind.  (On a syntactically valid object document the decode itself
never fails; malformed byte inputs are rejected by the collaborator
before any mutation.) -/
theorem unmarshal_atomic (o : OMap) (v : JValue)
    (herr : (o.unmarshalJSON v).2 ≠ none) : (o.unmarshalJSON v).1 = o := by
  by_cases hobj : ∃ ms, v = JValue.obj ms
  · obtain ⟨ms, rfl⟩ := hobj
    by_cases hmode : o.jsonLastValueWins
    · obtain ⟨V, heq, _, _, _⟩ := unmarshalJSON_obj o ms (Or.inl hmode)
      rw [heq] at herr
      simp at herr
    · by_cases hnd : JValue.noDup (.obj ms)
      · obtain ⟨V, heq, _, _, _⟩ := unmarshalJSON_obj o ms (Or.inr hnd)
        rw [heq] at herr
        simp at herr
      · have hmf : o.jsonLastValueWins = false := by simpa using hmode
        obtain ⟨k, herrk, _⟩ := (checkDuplicate_spec (.obj ms)
          ((JValue.tokens (.obj ms)).length + 1) [] (by omega)).2 (by simpa using hnd)
        rw [List.append_nil] at herrk
        simp [OMap.unmarshalJSON, hmf, herrk]
  · have hv : ∀ ms, v ≠ JValue.obj ms := fun ms h => hobj ⟨ms, h⟩
    rcases unmarshal_nonobj_err o v hv with h | ⟨k, h⟩ <;> rw [h]

/-- Witness for C7 on a non-object document. -/
theorem unmarshal_atomic_witness :
    ((OMap.new.set "p" (.num 7)).unmarshalJSON (.num 5)).1 = OMap.new.set "p" (.num 7) :=
  unmarshal_atomic (OMap.new.set "p" (.num 7)) (.num 5) (by decide)

/-! ### Claim C9: the keys/values invariant after decode -/

/-- A destination map that already holds an entry for x, in permissive
mode: the reused-destination scenario of the C9 counterexample. -/
def staleDest : OMap :=
  { keys := ["x"], values := [("x", DVal.num 1)], escapeHTML := true,
    jsonLastValueWins := true }

/-- C9 counterexample: a successful UnmarshalJSON into a destination that
already held an entry leaves that entry in the value mapping (the generic
unmarshal merges) while the key order is rebuilt from the document alone,
so the key sets differ and invariant I1 fails. -/
theorem stale_destination_breaks_invariant :
    (staleDest.unmarshalJSON (.obj [("y", .num 2)])).2 = none ∧
    (alGet (staleDest.unmarshalJSON (.obj [("y", .num 2)])).1.values "x").isSome = true ∧
    "x" ∉ (staleDest.unmarshalJSON (.obj [("y", .num 2)])).1.keys :=
  ⟨rfl, rfl, by decide⟩

/-- C9 amended: after every successful UnmarshalJSON into a fresh
destination (one whose value mapping is empty, as a newly created map
is), invariant I1 holds, in either duplicate-key mode and whatever the
document's repeated keys: the key order has no duplicates and lists
exactly the keys of the value mapping. -/
theorem unmarshal_fresh_invariant (o : OMap) (v : JValue) (o2 : OMap)
    (hfresh : o.values = []) (hok : o.unmarshalJSON v = (o2, none)) :
    o2.keys.Nodup ∧ ∀ k, k ∈ o2.keys ↔ (alGet o2.values k).isSome = true := by
  by_cases hobj : ∃ ms, v = JValue.obj ms
  · obtain ⟨ms, rfl⟩ := hobj
    have hok2 : o.jsonLastValueWins = true ∨ JValue.noDup (.obj ms) = true := by
      by_cases hmode : o.jsonLastValueWins
      · exact Or.inl hmode
      · by_cases hnd : JValue.noDup (.obj ms)
        · exact Or.inr hnd
        · have hmf : o.jsonLastValueWins = false := by simpa using hmode
          obtain ⟨k, herrk, _⟩ := (checkDuplicate_spec (.obj ms)
            ((JValue.tokens (.obj ms)).length + 1) [] (by omega)).2 (by simpa using hnd)
          rw [List.append_nil] at herrk
          have : o.unmarshalJSON (.obj ms) = (o, some (.dupKey k)) := by
            simp [OMap.unmarshalJSON, hmf, herrk]
          rw [this] at hok
          simp at hok
    obtain ⟨V, heq, hfst, _, _⟩ := unmarshalJSON_obj o ms hok2
    rw [heq] at hok
    have ho2 : o2 = { o with keys := lastWinsKeys (ms.map Prod.fst), values := V } := by
      injection hok with h1 _
      exact h1.symm
    subst ho2
    constructor
    · exact lastWinsKeys_nodup _
    · intro k
      simp only
      rw [mem_lastWinsKeys]
      have hVfst : V.map Prod.fst = firstOcc (ms.map Prod.fst) := by
        rw [hfst, hfresh, goMembers_map_fst]
        simp [firstOcc]
      constructor
      · intro hk
        have hmem : k ∈ V.map Prod.fst := by
          rw [hVfst, mem_firstOcc]
          exact hk
        rcases ho : alGet V k with _ | d
        · rw [alGet_eq_none_iff] at ho
          exact absurd hmem ho
        · simp
      · intro hk
        obtain ⟨d, hd⟩ := Option.isSome_iff_exists.mp hk
        have : ¬(alGet V k = none) := by
          rw [hd]
          simp
        rw [alGet_eq_none_iff] at this
        rw [← mem_firstOcc, ← hVfst]
        exact not_not.mp this
  · have hv : ∀ ms, v ≠ JValue.obj ms := fun ms h => hobj ⟨ms, h⟩
    rcases unmarshal_nonobj_err o v hv with h | ⟨k, h⟩ <;>
      (rw [h] at hok; simp at hok)

/-- Witness for the amended C9: a fresh permissive decode of a document
with a repeated key. -/
theorem unmarshal_fresh_invariant_witness :
    ((({ OMap.new with jsonLastValueWins := true }).unmarshalJSON
        (.obj [("a", .num 1), ("b", .num 2), ("a", .num 3)])).1.keys.Nodup ∧
      ∀ k, k ∈ (({ OMap.new with jsonLastValueWins := true }).unmarshalJSON
          (.obj [("a", .num 1), ("b", .num 2), ("a", .num 3)])).1.keys ↔
        (alGet (({ OMap.new with jsonLastValueWins := true }).unmarshalJSON
          (.obj [("a", .num 1), ("b", .num 2), ("a", .num 3)])).1.values k).isSome = true) :=
  unmarshal_fresh_invariant { OMap.new with jsonLastValueWins := true }
    (.obj [("a", .num 1), ("b", .num 2), ("a", .num 3)]) _ rfl rfl

/-! ### Claim C3: round-trip

The claim compares Encode(Decode(b)) with the document b itself.  To
state semantic equivalence, serJ renders a document value canonically --
its keys in document order, its values recursively, with the encoder's
escaping -- so that equality of the marshalled output with the canonical
rendering of b says precisely: same keys, same order, same values, at
every nesting level.  serJ is the specification-side description; the
code side is OMap.marshalJSON applied to the decode result. -/

mutual

/-- Canonical rendering of a document value: members in document order. -/
def serJ (eh : Bool) : JValue → List Char
  | .null => "null".toList
  | .bool true => "true".toList
  | .bool false => "false".toList
  | .num n => intChars n
  | .str s => quote eh s
  | .arr items => '[' :: joinComma (serJList eh items) ++ [']']
  | .obj ms => '{' :: joinComma (serJMembers eh ms) ++ ['}']

/-- Elementwise canonical rendering of array items. -/
def serJList (eh : Bool) : List JValue → List (List Char)
  | [] => []
  | v :: rest => serJ eh v :: serJList eh rest

/-- Canonical rendering of object members, in document order. -/
def serJMembers (eh : Bool) : List (String × JValue) → List (List Char)
  | [] => []
  | (k, v) :: rest => (quote eh k ++ ':' :: serJ eh v) :: serJMembers eh rest

end

/-- A key recorded as already seen does not occur in a member list that
passes the duplicate scan. -/
theorem noDupScan_not_mem : ∀ (ms : List (String × JValue)) (seen : List String)
    (k : String), k ∈ seen → noDupScan seen ms = true → k ∉ ms.map Prod.fst
  | [], seen, k, _, _ => by simp
  | (k1, v) :: rest, seen, k, hk, h => by
      simp only [noDupScan, Bool.and_eq_true] at h
      obtain ⟨⟨h1, _⟩, h3⟩ := h
      simp only [List.map_cons, List.mem_cons]
      rintro (rfl | hm)
      · have hc : seen.contains k = true := by simpa using hk
        rw [hc] at h1
        simp at h1
      · exact noDupScan_not_mem rest (k1 :: seen) k (List.mem_cons_of_mem _ hk) h3 hm

/-- A member list that passes the duplicate scan has pairwise distinct
keys. -/
theorem noDupScan_nodup : ∀ (ms : List (String × JValue)) (seen : List String),
    noDupScan seen ms = true → (ms.map Prod.fst).Nodup
  | [], seen, _ => by simp
  | (k1, v) :: rest, seen, h => by
      simp only [noDupScan, Bool.and_eq_true] at h
      obtain ⟨⟨_, _⟩, h3⟩ := h
      simp only [List.map_cons, List.nodup_cons]
      exact ⟨noDupScan_not_mem rest (k1 :: seen) k1 (List.mem_cons_self _ _) h3,
        noDupScan_nodup rest (k1 :: seen) h3⟩

/-- Every member value of a scanned-clean list is itself clean. -/
theorem noDupScan_val : ∀ (ms : List (String × JValue)) (seen : List String)
    (k : String) (v : JValue), (k, v) ∈ ms → noDupScan seen ms = true →
    JValue.noDup v = true
  | [], seen, k, v, hm, _ => by simp at hm
  | (k1, w) :: rest, seen, k, v, hm, h => by
      simp only [noDupScan, Bool.and_eq_true] at h
      obtain ⟨⟨_, h2⟩, h3⟩ := h
      rcases List.mem_cons.mp hm with heq | hm2
      · cases heq
        exact h2
      · exact noDupScan_val rest (k1 :: seen) k v hm2 h3

/-- With pairwise distinct keys, a member's value is the last (indeed the
only) value of its key. -/
theorem lastVal_of_mem_nodup : ∀ (ms : List (String × JValue)) (k : String)
    (v : JValue), (ms.map Prod.fst).Nodup → (k, v) ∈ ms → lastVal ms k = some v
  | [], k, v, _, hm => by simp at hm
  | (k1, w) :: rest, k, v, hnd, hm => by
      simp only [List.map_cons, List.nodup_cons] at hnd
      rcases List.mem_cons.mp hm with heq | hm2
      · cases heq
        have hnone : lastVal rest k1 = none :=
          (lastVal_eq_none_iff rest k1).mpr hnd.1
        rw [lastVal_cons_of_none k1 w rest k1 hnone, if_pos rfl]
      · exact lastVal_cons_of_some k1 w rest k v
          (lastVal_of_mem_nodup rest k v hnd.2 hm2)

/-- Looking a key up among pointwise-serialised entries is serialising the
looked-up value. -/
theorem alGetSer_serEntries (eh : Bool) : ∀ (g : List (String × DVal)) (k : String),
    alGetSer (serEntries eh g) k = (alGet g k).map (serD eh)
  | [], k => rfl
  | (k1, d) :: rest, k => by
      simp only [serEntries, alGetSer, alGet]
      by_cases h : k1 = k
      · simp [h]
      · simp [h, alGetSer_serEntries eh rest k]

/-- Mapping a chunk function that agrees with the canonical rendering on
every member over the key list produces the canonical member chunks. -/
theorem map_key_chunks (eh : Bool) (f : String → List Char) :
    ∀ (ms : List (String × JValue)),
    (∀ k v, (k, v) ∈ ms → f k = serJ eh v) →
    (ms.map Prod.fst).map (fun k => quote eh k ++ ':' :: f k) = serJMembers eh ms
  | [], _ => rfl
  | (k1, v1) :: rest, h => by
      simp only [List.map_cons, serJMembers]
      rw [h k1 v1 (List.mem_cons_self _ _),
        map_key_chunks eh f rest (fun k v hm => h k v (List.mem_cons_of_mem _ hm))]

mutual

/-- On a duplicate-free document value, serialising the decoded dynamic
value reproduces the canonical rendering of the document value. -/
theorem serD_orderize : ∀ (eh : Bool) (v : JValue), JValue.noDup v = true →
    serD eh (orderize eh v) = serJ eh v
  | eh, .null, _ => rfl
  | eh, .bool b, _ => by cases b <;> rfl
  | eh, .num n, _ => rfl
  | eh, .str s, _ => rfl
  | eh, .arr items, h => by
      simp only [orderize, serD, serJ]
      rw [serDList_ordList eh items (by simpa [JValue.noDup] using h)]
  | eh, .obj ms, h => by
      have hscan : noDupScan [] ms = true := by simpa [JValue.noDup] using h
      have hnd : (ms.map Prod.fst).Nodup := noDupScan_nodup ms [] hscan
      simp only [orderize, serD, serJ]
      rw [lastWinsKeys_of_nodup _ hnd]
      have hmap : (ms.map Prod.fst).map (fun k => quote eh k ++ ':' ::
          ((alGetSer (serEntries eh (ordEntries eh [] ms)) k).getD "null".toList)) =
          serJMembers eh ms := by
        apply map_key_chunks
        intro k v hm
        have hlv : lastVal ms k = some v := lastVal_of_mem_nodup ms k v hnd hm
        have hrec : serD eh (orderize eh v) = serJ eh v :=
          serD_orderize_members eh ms k v hm (noDupScan_val ms [] k v hm hscan)
        rw [alGetSer_serEntries eh _ k, alGet_ordEntries_of_some ms eh [] k v hlv]
        simp [hrec]
      rw [hmap]

/-- Elementwise form of serD_orderize for array items. -/
theorem serDList_ordList : ∀ (eh : Bool) (items : List JValue),
    noDupList items = true → serDList eh (ordList eh items) = serJList eh items
  | eh, [], _ => rfl
  | eh, v :: rest, h => by
      simp only [noDupList, Bool.and_eq_true] at h
      simp only [ordList, serDList, serJList]
      rw [serD_orderize eh v h.1, serDList_ordList eh rest h.2]

/-- serD_orderize applied to a value drawn from a member list. -/
theorem serD_orderize_members : ∀ (eh : Bool) (ms : List (String × JValue))
    (k : String) (v : JValue), (k, v) ∈ ms → JValue.noDup v = true →
    serD eh (orderize eh v) = serJ eh v
  | eh, [], k, v, hm, _ => by simp at hm
  | eh, (k1, w) :: rest, k, v, hm, hnd => by
      rcases List.mem_cons.mp hm with heq | hm2
      · cases heq
        exact serD_orderize eh w hnd
      · exact serD_orderize_members eh rest k v hm2 hnd

end

/-- The marshal chunks of the decoded entries are the canonical chunks of
the document members, given pointwise agreement of the serialised values. -/
theorem marshal_members_eq (eh : Bool) (V : List (String × DVal)) :
    ∀ (ms : List (String × JValue)),
    (∀ k v, (k, v) ∈ ms → serD eh ((alGet V k).getD .null) = serJ eh v) →
    (ms.map Prod.fst).map (fun k =>
        (quote eh k ++ ['\n']) ++ ':' :: (serD eh ((alGet V k).getD .null) ++ ['\n'])) =
      ms.map (fun p => (quote eh p.1 ++ ['\n']) ++ ':' :: (serJ eh p.2 ++ ['\n']))
  | [], _ => rfl
  | (k1, v1) :: rest, h => by
      simp only [List.map_cons]
      rw [h k1 v1 (List.mem_cons_self _ _),
        marshal_members_eq eh V rest (fun k v hm => h k v (List.mem_cons_of_mem _ hm))]

/-- C3: for every document that is an object with no duplicate keys at any
nesting level, decoding it into a fresh OrderedMap succeeds and the
marshalled output is the canonical rendering of the document itself --
brace, the members in document order (each key quoted, the encoder newline,
a colon, the canonical rendering of the member value, the encoder newline),
brace: the same keys in the same order with the same values at every
nesting level, the only difference from a compact rendering being the
documented encoder newlines at the top level. -/
theorem decode_encode_roundtrip (ms : List (String × JValue))
    (hnd : JValue.noDup (.obj ms) = true) :
    (OMap.new.unmarshalJSON (.obj ms)).2 = none ∧
    (OMap.new.unmarshalJSON (.obj ms)).1.marshalJSON =
      '{' :: joinComma (ms.map (fun p =>
        (quote true p.1 ++ ['\n']) ++ ':' :: (serJ true p.2 ++ ['\n']))) ++ ['}'] := by
  have hscan : noDupScan [] ms = true := by simpa [JValue.noDup] using hnd
  have hkeys : (ms.map Prod.fst).Nodup := noDupScan_nodup ms [] hscan
  obtain ⟨V, heq, hfst, hunt, hcorr⟩ := unmarshalJSON_obj OMap.new ms (Or.inr hnd)
  refine ⟨by rw [heq], ?_⟩
  rw [heq]
  show OMap.marshalJSON _ = _
  simp only [OMap.marshalJSON, OMap.new]
  rw [lastWinsKeys_of_nodup _ hkeys]
  have hser : ∀ k v, (k, v) ∈ ms →
      serD true ((alGet V k).getD .null) = serJ true v := by
    intro k v hm
    have hlv : lastVal ms k = some v := lastVal_of_mem_nodup ms k v hkeys hm
    rw [hcorr k v hlv]
    exact serD_orderize true v (noDupScan_val ms [] k v hm hscan)
  rw [marshal_members_eq true V ms hser]

/-- Witness for C3: the document with members a:1 and b:["x"]. -/
theorem decode_encode_roundtrip_witness :
    JValue.noDup (.obj [("a", .num 1), ("b", .arr [.str "x"])]) = true ∧
    ((OMap.new.unmarshalJSON (.obj [("a", .num 1), ("b", .arr [.str "x"])])).2 = none ∧
      (OMap.new.unmarshalJSON
          (.obj [("a", .num 1), ("b", .arr [.str "x"])])).1.marshalJSON =
        '{' :: joinComma ([("a", JValue.num 1), ("b", JValue.arr [JValue.str "x"])].map
          (fun p => (quote true p.1 ++ ['\n']) ++ ':' :: (serJ true p.2 ++ ['\n'])))
          ++ ['}']) :=
  ⟨by decide, decode_encode_roundtrip [("a", .num 1), ("b", .arr [.str "x"])] (by decide)⟩

/-! ### The Sort method and its collaborator, the standard sort

Sort builds the pair slice from the key order (looking each value up; a
missing value is Go's nil), hands it to the standard library's sort.Sort,
and writes the sorted keys back.  sort.Sort is embedded here as its
classic implementation: introsort -- quicksort with median-of-three (and
median-of-nine on large ranges) pivoting, a duplicate-protection pass, a
depth limit of twice the bit length falling back to heapsort, and a
shell-sort gap-6 pass followed by insertion sort on ranges of at most
twelve elements.  Loops are rendered as structural recursion; where the
Go loop variable is not itself structurally decreasing the recursion runs
on an explicit counter whose start value at each call site bounds the
iteration count of the source loop (an index strictly grows toward a
bound, so the bound suffices), so the embedded functions compute exactly
the source's runs.  Indexing is total: reads default and writes out of
range are dropped; the source only touches indices inside the slice. -/

/-- The pair type Sort permutes: a key with its looked-up value. -/
abbrev Pair := String × DVal

/-- Read one pair of the slice. -/
def pget (l : List Pair) (i : Nat) : Pair := l.getD i ("", DVal.null)

/-- Swap, the interface method: exchange two slice positions. -/
def pswap (l : List Pair) (i j : Nat) : List Pair :=
  (l.set i (pget l j)).set j (pget l i)

/-- Less, the interface method: the comparator on the pairs at two
positions. -/
def lessAt (less : Pair → Pair → Bool) (d : List Pair) (i j : Nat) : Bool :=
  less (pget d i) (pget d j)

/-- The inner insertion-sort loop: walk j down from i while the element is
less than its left neighbour, swapping.  Structural on j. -/
def insertionInner (less : Pair → Pair → Bool) (a : Nat) : Nat → List Pair → List Pair
  | 0, d => d
  | j+1, d =>
      if a < j+1 ∧ lessAt less d (j+1) j = true then
        insertionInner less a j (pswap d (j+1) j)
      else d

/-- The outer insertion-sort loop over i; the counter starts at b, which
bounds the iterations of the source loop. -/
def insertionOuter (less : Pair → Pair → Bool) (a b : Nat) :
    Nat → Nat → List Pair → List Pair
  | 0, _, d => d
  | fuel+1, i, d =>
      if i < b then insertionOuter less a b fuel (i+1) (insertionInner less a i d)
      else d

/-- insertionSort of the range from a (inclusive) to b (exclusive). -/
def insertionSort (less : Pair → Pair → Bool) (d : List Pair) (a b : Nat) : List Pair :=
  insertionOuter less a b b (a+1) d

/-- The siftDown loop: push the root down the heap, following the larger
child while it is larger than the root.  The root strictly grows below hi,
so the counter hi at the call site bounds the iterations. -/
def siftDownLoop (less : Pair → Pair → Bool) (hi first : Nat) :
    Nat → Nat → List Pair → List Pair
  | 0, _, d => d
  | fuel+1, root, d =>
      if 2*root+1 < hi then
        if 2*root+2 < hi ∧ lessAt less d (first+(2*root+1)) (first+(2*root+2)) = true then
          if lessAt less d (first+root) (first+(2*root+2)) = true then
            siftDownLoop less hi first fuel (2*root+2)
              (pswap d (first+root) (first+(2*root+2)))
          else d
        else
          if lessAt less d (first+root) (first+(2*root+1)) = true then
            siftDownLoop less hi first fuel (2*root+1)
              (pswap d (first+root) (first+(2*root+1)))
          else d
      else d

/-- siftDown starting at root lo within the heap of size hi based at
first. -/
def siftDown (less : Pair → Pair → Bool) (d : List Pair) (lo hi first : Nat) : List Pair :=
  siftDownLoop less hi first hi lo d

/-- The heap-building loop of heapSort, roots from (hi-1)/2 down to 0; the
countdown argument is the loop index plus one. -/
def heapBuild (less : Pair → Pair → Bool) : Nat → List Pair → Nat → Nat → List Pair
  | 0, d, _, _ => d
  | n+1, d, hi, first => heapBuild less n (siftDown less d n hi first) hi first

/-- The popping loop of heapSort: swap the top to the end and sift, i from
hi-1 down to 0. -/
def heapPop (less : Pair → Pair → Bool) : Nat → List Pair → Nat → List Pair
  | 0, d, _ => d
  | n+1, d, first =>
      heapPop less n (siftDown less (pswap d first (first+n)) 0 n first) first

/-- heapSort of the range from a to b. -/
def heapSort (less : Pair → Pair → Bool) (d : List Pair) (a b : Nat) : List Pair :=
  heapPop less (b-a) (heapBuild less ((b-a-1)/2 + 1) d (b-a) a) a

/-- medianOfThree: move the median of the pairs at m0, m1, m2 into m0. -/
def medianOfThree (less : Pair → Pair → Bool) (d : List Pair) (m1 m0 m2 : Nat) : List Pair :=
  let d1 := if lessAt less d m1 m0 = true then pswap d m1 m0 else d
  if lessAt less d1 m2 m1 = true then
    let d2 := pswap d1 m2 m1
    if lessAt less d2 m1 m0 = true then pswap d2 m1 m0 else d2
  else d1

/-- The first scan of doPivot: advance a over elements less than the
pivot, below c. -/
def pivLoopA (less : Pair → Pair → Bool) (d : List Pair) (pivot c : Nat) :
    Nat → Nat → Nat
  | 0, a => a
  | fuel+1, a =>
      if a < c ∧ lessAt less d a pivot = true then pivLoopA less d pivot c fuel (a+1)
      else a

/-- The partition scan advancing b over elements not greater than the
pivot, below c. -/
def pivLoopB1 (less : Pair → Pair → Bool) (d : List Pair) (pivot c : Nat) :
    Nat → Nat → Nat
  | 0, b => b
  | fuel+1, b =>
      if b < c ∧ ¬(lessAt less d pivot b = true) then pivLoopB1 less d pivot c fuel (b+1)
      else b

/-- The partition scan retreating c while the element before it is greater
than the pivot, above b.  Structural on c. -/
def pivLoopC1 (less : Pair → Pair → Bool) (d : List Pair) (pivot b : Nat) : Nat → Nat
  | 0 => 0
  | c+1 => if b < c+1 ∧ lessAt less d pivot c = true then pivLoopC1 less d pivot b c
      else c+1

/-- The partition loop of doPivot: scan from both ends and swap, until the
pointers meet.  The pointers close by at least two per iteration, so the
counter hi-lo+1 at the call site bounds the iterations. -/
def pivPartition (less : Pair → Pair → Bool) :
    Nat → List Pair → Nat → Nat → Nat → List Pair × Nat × Nat
  | 0, d, _, b, c => (d, b, c)
  | fuel+1, d, pivot, b, c =>
      let b1 := pivLoopB1 less d pivot c c b
      let c1 := pivLoopC1 less d pivot b1 c
      if b1 ≥ c1 then (d, b1, c1)
      else pivPartition less fuel (pswap d b1 (c1-1)) pivot (b1+1) (c1-1)

/-- The duplicate-protection scan retreating b over elements equal to the
pivot, above a.  Structural on b. -/
def protLoopB (less : Pair → Pair → Bool) (d : List Pair) (pivot a : Nat) : Nat → Nat
  | 0 => 0
  | b+1 => if a < b+1 ∧ ¬(lessAt less d b pivot = true) then protLoopB less d pivot a b
      else b+1

/-- The duplicate-protection scan advancing a over elements less than the
pivot, below b. -/
def protLoopA (less : Pair → Pair → Bool) (d : List Pair) (pivot b : Nat) :
    Nat → Nat → Nat
  | 0, a => a
  | fuel+1, a =>
      if a < b ∧ lessAt less d a pivot = true then protLoopA less d pivot b fuel (a+1)
      else a

/-- The duplicate-protection loop of doPivot.  The pointers close by at
least two per iteration, so the counter b-a+1 at the call site bounds the
iterations. -/
def protPartition (less : Pair → Pair → Bool) :
    Nat → List Pair → Nat → Nat → Nat → List Pair × Nat
  | 0, d, _, _, b => (d, b)
  | fuel+1, d, pivot, a, b =>
      let b1 := protLoopB less d pivot a b
      let a1 := protLoopA less d pivot b1 b1 a
      if a1 ≥ b1 then (d, b1)
      else protPartition less fuel (pswap d a1 (b1-1)) pivot (a1+1) (b1-1)

/-- doPivot: choose a pivot by median of three (of nine beyond forty
elements), partition the range around it with the duplicate heuristics of
the source, and return the slice with the two split points. -/
def doPivot (less : Pair → Pair → Bool) (d0 : List Pair) (lo hi : Nat) :
    List Pair × Nat × Nat :=
  let m := (lo + hi) / 2
  let d1 := if 40 < hi - lo then
      let s := (hi - lo) / 8
      medianOfThree less
        (medianOfThree less (medianOfThree less d0 lo (lo+s) (lo+2*s)) m (m-s) (m+s))
        (hi-1) (hi-1-s) (hi-1-2*s)
    else d0
  let d2 := medianOfThree less d1 lo m (hi-1)
  let a0 := pivLoopA less d2 lo (hi-1) (hi-1) (lo+1)
  match pivPartition less (hi - lo + 1) d2 lo a0 (hi-1) with
  | (d3, b0, c0) =>
    match (if hi - c0 < 5 then (d3, b0, c0, true)
      else if hi - c0 < (hi - lo) / 4 then
        match (if ¬(lessAt less d3 lo (hi-1) = true) then
            (pswap d3 c0 (hi-1), c0+1, 1) else (d3, c0, 0)) with
        | (d4, c1, dups1) =>
          match (if ¬(lessAt less d4 (b0-1) lo = true) then
              (b0-1, dups1+1) else (b0, dups1)) with
          | (b1, dups2) =>
            match (if ¬(lessAt less d4 m lo = true) then
                (pswap d4 m (b1-1), b1-1, dups2+1) else (d4, b1, dups2)) with
            | (d5, b2, dups3) => (d5, b2, c1, decide (1 < dups3))
      else (d3, b0, c0, false)) with
    | (d6, b3, c2, protect) =>
      match (if protect then protPartition less (b3 - a0 + 1) d6 lo a0 b3
        else (d6, b3)) with
      | (d7, b4) => (pswap d7 lo (b4-1), b4-1, c2)

/-- The shell-sort pass with gap six run before insertion sort on short
ranges. -/
def shellPass (less : Pair → Pair → Bool) (b : Nat) : Nat → Nat → List Pair → List Pair
  | 0, _, d => d
  | fuel+1, i, d =>
      if i < b then
        shellPass less b fuel (i+1)
          (if lessAt less d i (i-6) = true then pswap d i (i-6) else d)
      else d

/-- quickSort: partition while more than twelve elements remain, falling
back to heapSort when the depth budget runs out, recursing into the
smaller side and looping (here: tail-recursing) on the larger; short
ranges get the shell pass and insertion sort.  Every recursive call is on
a strictly shorter range, so the counter length+1 at the top call bounds
the nesting depth and is never exhausted. -/
def quickSort (less : Pair → Pair → Bool) : Nat → List Pair → Nat → Nat → Nat → List Pair
  | 0, d, _, _, _ => d
  | fuel+1, d, a, b, md =>
      if 12 < b - a then
        if md = 0 then heapSort less d a b
        else match doPivot less d a b with
          | (d2, mlo, mhi) =>
            if mlo - a < b - mhi then
              quickSort less fuel (quickSort less fuel d2 a mlo (md-1)) mhi b (md-1)
            else
              quickSort less fuel (quickSort less fuel d2 mhi b (md-1)) a mlo (md-1)
      else if 1 < b - a then
        insertionSort less (shellPass less b b (a+6) d) a b
      else d

/-- The depth-budget loop: count halvings of n down to zero; the counter n
bounds the halvings. -/
def depthLoop : Nat → Nat → Nat
  | 0, _ => 0
  | fuel+1, n => if n = 0 then 0 else depthLoop fuel (n/2) + 1

/-- maxDepth: twice the bit length of n, the quicksort depth budget. -/
def maxDepth (n : Nat) : Nat := 2 * depthLoop n n

/-- Sort of the standard library: quickSort of the whole slice under the
depth budget. -/
def sortSort (less : Pair → Pair → Bool) (d : List Pair) : List Pair :=
  quickSort less (d.length + 1) d 0 d.length (maxDepth d.length)

/-- The Sort method: build the pair slice in key order (a missing value is
nil), sort it with the standard sort, and write the keys back in the
sorted order. -/
def OMap.sort (o : OMap) (less : Pair → Pair → Bool) : OMap :=
  let pairs := o.keys.map (fun k => (k, (alGet o.values k).getD .null))
  { o with keys := (sortSort less pairs).map Prod.fst }

/-! ### Claim C5: stability of Sort

The always-false-comparator half of the claim holds and is proved below
for every map; the stability half fails: the shell pass with gap six jumps
an element over six neighbours it was never compared with, reordering
equal-ranked pairs. -/

/-- Writing a position's own pair back into it changes nothing. -/
theorem set_pget_self : ∀ (l : List Pair) (i : Nat), l.set i (pget l i) = l
  | [], i => by simp
  | x :: t, 0 => by simp [pget]
  | x :: t, i+1 => by
      simp only [pget, List.getD_cons_succ, List.set_cons_succ]
      rw [show t.set i (t.getD i ("", DVal.null)) = t from set_pget_self t i]

/-- Swapping a position with itself changes nothing. -/
theorem pswap_self (l : List Pair) (i : Nat) : pswap l i i = l := by
  unfold pswap
  rw [set_pget_self l i, set_pget_self l i]

/-- With a comparator that never holds, the inner insertion loop is the
identity. -/
theorem insertionInner_false (less : Pair → Pair → Bool)
    (hf : ∀ x y, less x y = false) (a : Nat) :
    ∀ (j : Nat) (d : List Pair), insertionInner less a j d = d
  | 0, d => rfl
  | j+1, d => by simp [insertionInner, lessAt, hf]

/-- With a comparator that never holds, insertion sort is the identity. -/
theorem insertionOuter_false (less : Pair → Pair → Bool)
    (hf : ∀ x y, less x y = false) (a b : Nat) :
    ∀ (fuel i : Nat) (d : List Pair), insertionOuter less a b fuel i d = d
  | 0, _, d => rfl
  | fuel+1, i, d => by
      simp only [insertionOuter]
      rw [insertionInner_false less hf a i d]
      by_cases h : i < b
      · rw [if_pos h]
        exact insertionOuter_false less hf a b fuel (i+1) d
      · rw [if_neg h]

/-- With a comparator that never holds, the shell pass is the identity. -/
theorem shellPass_false (less : Pair → Pair → Bool)
    (hf : ∀ x y, less x y = false) (b : Nat) :
    ∀ (fuel i : Nat) (d : List Pair), shellPass less b fuel i d = d
  | 0, _, d => rfl
  | fuel+1, i, d => by
      simp only [shellPass, lessAt, hf]
      by_cases h : i < b
      · rw [if_pos h]
        exact shellPass_false less hf b fuel (i+1) d
      · rw [if_neg h]

/-- With a comparator that never holds, the first doPivot scan stays
put. -/
theorem pivLoopA_false (less : Pair → Pair → Bool)
    (hf : ∀ x y, less x y = false) (d : List Pair) (pivot c : Nat) :
    ∀ (fuel a : Nat), pivLoopA less d pivot c fuel a = a
  | 0, a => rfl
  | fuel+1, a => by simp [pivLoopA, lessAt, hf]

/-- With a comparator that never holds, the b scan runs to the barrier
c. -/
theorem pivLoopB1_false (less : Pair → Pair → Bool)
    (hf : ∀ x y, less x y = false) (d : List Pair) (pivot c : Nat) :
    ∀ (fuel b : Nat), b ≤ c → c - b ≤ fuel → pivLoopB1 less d pivot c fuel b = c
  | 0, b, hbc, hfuel => by
      have : b = c := by omega
      rw [this]
      rfl
  | fuel+1, b, hbc, hfuel => by
      by_cases h : b < c
      · simp only [pivLoopB1]
        rw [if_pos ⟨h, by simp [lessAt, hf]⟩]
        exact pivLoopB1_false less hf d pivot c fuel (b+1) (by omega) (by omega)
      · have : b = c := by omega
        rw [this]
        simp [pivLoopB1]

/-- With a comparator that never holds, the c scan stays put. -/
theorem pivLoopC1_false (less : Pair → Pair → Bool)
    (hf : ∀ x y, less x y = false) (d : List Pair) (pivot b : Nat) :
    ∀ (c : Nat), pivLoopC1 less d pivot b c = c
  | 0 => rfl
  | c+1 => by simp [pivLoopC1, lessAt, hf]

/-- With a comparator that never holds, the partition loop ends at the
barrier with the slice unchanged. -/
theorem pivPartition_false (less : Pair → Pair → Bool)
    (hf : ∀ x y, less x y = false) (d : List Pair) (pivot : Nat) (b c fuel : Nat)
    (hbc : b ≤ c) (hfuel : 1 ≤ fuel) :
    pivPartition less fuel d pivot b c = (d, c, c) := by
  cases fuel with
  | zero => omega
  | succ f =>
      simp only [pivPartition]
      rw [pivLoopB1_false less hf d pivot c c b hbc (by omega),
        pivLoopC1_false less hf d pivot c c]
      rw [if_pos (le_refl c)]

/-- With a comparator that never holds, the b protection scan runs down to
the barrier a. -/
theorem protLoopB_false (less : Pair → Pair → Bool)
    (hf : ∀ x y, less x y = false) (d : List Pair) (pivot a : Nat) :
    ∀ (b : Nat), a ≤ b → protLoopB less d pivot a b = a
  | 0, hab => by
      have : a = 0 := by omega
      rw [this]
      rfl
  | b+1, hab => by
      by_cases h : a < b+1
      · simp only [protLoopB]
        rw [if_pos ⟨h, by simp [lessAt, hf]⟩]
        exact protLoopB_false less hf d pivot a b (by omega)
      · have : a = b+1 := by omega
        simp [protLoopB, this]

/-- With a comparator that never holds, the a protection scan stays
put. -/
theorem protLoopA_false (less : Pair → Pair → Bool)
    (hf : ∀ x y, less x y = false) (d : List Pair) (pivot b : Nat) :
    ∀ (fuel a : Nat), protLoopA less d pivot b fuel a = a
  | 0, a => rfl
  | fuel+1, a => by simp [protLoopA, lessAt, hf]

/-- With a comparator that never holds, the protection loop ends at the
barrier with the slice unchanged. -/
theorem protPartition_false (less : Pair → Pair → Bool)
    (hf : ∀ x y, less x y = false) (d : List Pair) (pivot : Nat) (a b fuel : Nat)
    (hab : a ≤ b) (hfuel : 1 ≤ fuel) :
    protPartition less fuel d pivot a b = (d, a) := by
  cases fuel with
  | zero => omega
  | succ f =>
      simp only [protPartition]
      rw [protLoopB_false less hf d pivot a b hab,
        protLoopA_false less hf d pivot a a]
      rw [if_pos (le_refl a)]

/-- With a comparator that never holds, medianOfThree is the identity. -/
theorem medianOfThree_false (less : Pair → Pair → Bool)
    (hf : ∀ x y, less x y = false) (d : List Pair) (m1 m0 m2 : Nat) :
    medianOfThree less d m1 m0 m2 = d := by
  simp [medianOfThree, lessAt, hf]

/-- With a comparator that never holds, doPivot leaves the slice unchanged
and splits off the two border elements. -/
theorem doPivot_false (less : Pair → Pair → Bool)
    (hf : ∀ x y, less x y = false) (d : List Pair) (lo hi : Nat)
    (h : lo + 2 ≤ hi) :
    doPivot less d lo hi = (d, lo, hi - 1) := by
  simp only [doPivot, medianOfThree_false less hf, ite_self]
  rw [pivLoopA_false less hf d lo (hi-1) (hi-1) (lo+1),
    pivPartition_false less hf d lo (lo+1) (hi-1) (hi-lo+1) (by omega) (by omega)]
  have h5 : hi - (hi - 1) < 5 := by omega
  simp only [if_pos h5]
  rw [protPartition_false less hf d lo (lo+1) (hi-1) ((hi-1)-(lo+1)+1) (by omega)
    (by omega)]
  rw [if_pos (by trivial)]
  show (pswap d lo (lo + 1 - 1), lo + 1 - 1, hi - 1) = (d, lo, hi - 1)
  rw [show lo + 1 - 1 = lo from rfl, pswap_self]

/-- With a comparator that never holds, quickSort leaves the slice
unchanged as long as the depth budget is positive on every range of more
than twelve elements -- which holds, since such a range is split at its
borders and the loop finishes immediately. -/
theorem quickSort_false (less : Pair → Pair → Bool)
    (hf : ∀ x y, less x y = false) :
    ∀ (fuel : Nat) (d : List Pair) (a b md : Nat), (12 < b - a → 1 ≤ md) →
    quickSort less fuel d a b md = d
  | 0, d, a, b, md, hmd => rfl
  | fuel+1, d, a, b, md, hmd => by
      simp only [quickSort]
      by_cases h12 : 12 < b - a
      · rw [if_pos h12, if_neg (by omega : ¬ md = 0)]
        rw [doPivot_false less hf d a b (by omega)]
        rw [if_pos (by omega : a - a < b - (b-1))]
        rw [quickSort_false less hf fuel d a a (md-1) (by omega)]
        exact quickSort_false less hf fuel d (b-1) b (md-1) (by omega)
      · rw [if_neg h12]
        by_cases h1 : 1 < b - a
        · rw [if_pos h1]
          rw [shellPass_false less hf b b (a+6) d]
          exact insertionOuter_false less hf a b b (a+1) d
        · rw [if_neg h1]

/-- The depth budget is positive on a nonempty slice. -/
theorem maxDepth_pos (n : Nat) (h : 1 ≤ n) : 1 ≤ maxDepth n := by
  cases n with
  | zero => omega
  | succ m =>
      show 1 ≤ 2 * depthLoop (m+1) (m+1)
      simp only [depthLoop]
      rw [if_neg (by omega : ¬ m+1 = 0)]
      omega

/-- With a comparator that never holds, the whole standard sort is the
identity. -/
theorem sortSort_false (less : Pair → Pair → Bool)
    (hf : ∀ x y, less x y = false) (d : List Pair) : sortSort less d = d := by
  unfold sortSort
  apply quickSort_false less hf
  intro h
  exact maxDepth_pos d.length (by omega)

/-- A comparator that orders the pairs by a numeric rank stored as their
value. -/
def rankLess : Pair → Pair → Bool := fun x y =>
  match x.2, y.2 with
  | DVal.num a, DVal.num b => decide (a < b)
  | _, _ => false

/-- Seven keys, the first ranked above the six others, which are all
equal-ranked. -/
def unstableMap : OMap :=
  { keys := ["p", "q", "r", "s", "t", "u", "v"],
    values := [("p", DVal.num 1), ("q", DVal.num 0), ("r", DVal.num 0),
      ("s", DVal.num 0), ("t", DVal.num 0), ("u", DVal.num 0), ("v", DVal.num 0)],
    escapeHTML := true, jsonLastValueWins := false }

/-- C5 counterexample: Sort is not stable.  On seven pairs whose last six
share a rank, the shell pass swaps the last pair over its six equal-ranked
neighbours: the keys q and v tie under the comparator (it returns false
both ways), q precedes v in the input order, yet v precedes q after
Sort. -/
theorem sort_unstable_counterexample :
    (unstableMap.sort rankLess).keys = ["v", "q", "r", "s", "t", "u", "p"] ∧
    rankLess ("q", DVal.num 0) ("v", DVal.num 0) = false ∧
    rankLess ("v", DVal.num 0) ("q", DVal.num 0) = false ∧
    unstableMap.keys = ["p", "q", "r", "s", "t", "u", "v"] :=
  ⟨rfl, rfl, rfl, rfl⟩

/-- C5 (amended): Sort delegates to the standard sort.Sort, which is not
stable -- equal-ranked pairs can be reordered -- but the claim's special
case does hold: for every map, Sort with a comparator that always returns
false leaves the key order unchanged. -/
theorem sort_always_false_keeps_order (o : OMap) (less : Pair → Pair → Bool)
    (hf : ∀ x y, less x y = false) : (o.sort less).keys = o.keys := by
  show (sortSort less (o.keys.map (fun k => (k, (alGet o.values k).getD .null)))).map
      Prod.fst = o.keys
  rw [sortSort_false less hf]
  rw [List.map_map]
  show o.keys.map (fun k => k) = o.keys
  exact List.map_id' o.keys

/-- Witness for the amended C5 on a concrete map and the always-false
comparator. -/
theorem sort_always_false_keeps_order_witness :
    (unstableMap.sort (fun _ _ => false)).keys = unstableMap.keys :=
  sort_always_false_keeps_order unstableMap (fun _ _ => false) (fun _ _ => rfl)

end OrderedMapVerify
